import Mathlib

/-!
Verification development for `scripts/visualize-org.py`, the org-chart
generator of the solopreneur-plugin repository.

The Python source is shallowly embedded: each Python function used by the
claims is translated into an executable Lean definition operating on
`String` / `List Char`.  Python's Unicode-sensitive primitives
(`str.lower`, `str.title`, `\w`, `\s`) are modelled on their ASCII core,
which is the fragment the program's own data exercises.  Python dicts are
modelled as insertion-ordered association lists with overwrite-in-place
semantics, and Python sets (used only for membership tests and one
iteration) as first-occurrence-deduplicated lists.  Code paths on which
CPython raises an exception (attribute errors on list-valued frontmatter
fields, unhashable dict keys) are modelled by returning `none` from an
`Option`-valued translation.
-/

set_option maxRecDepth 8000

namespace VizOrg

/-! ### Python string primitives -/

/-- Whitespace characters recognised by Python's `str.strip`, `str.split()`
and the regex class `\s` (ASCII fragment). -/
def isSpace (c : Char) : Bool :=
  c = ' ' || c = '\t' || c = '\n' || c = '\r' || c = '\x0b' || c = '\x0c'

/-- Python `str.strip()` on a character list. -/
def pyStripL (l : List Char) : List Char :=
  ((l.dropWhile isSpace).reverse.dropWhile isSpace).reverse

/-- Python `str.strip()`. -/
def pyStrip (s : String) : String := String.mk (pyStripL s.data)

/-- Python `str.strip(c)` for a single character argument. -/
def pyStripChar (c : Char) (s : String) : String :=
  String.mk (((s.data.dropWhile (· = c)).reverse.dropWhile (· = c)).reverse)

/-- Python `str.lower()` (ASCII fragment). -/
def pyLower (s : String) : String := String.mk (s.data.map Char.toLower)

/-- Python `str.title()` (ASCII fragment): the first character of each
maximal run of letters is uppercased, the rest lowercased; other
characters are kept and act as word separators. -/
def pyTitleL : List Char → Bool → List Char
  | [], _ => []
  | c :: t, prevAlpha =>
    (if c.isAlpha then (if prevAlpha then c.toLower else c.toUpper) else c)
      :: pyTitleL t c.isAlpha

/-- Python `str.title()`. -/
def pyTitle (s : String) : String := String.mk (pyTitleL s.data false)

/-- Python `str.replace("-", " ")`. -/
def dashToSpace (s : String) : String :=
  String.mk (s.data.map (fun c => if c = '-' then ' ' else c))

/-- Python `str.replace(" ", "-")`. -/
def spaceToDash (s : String) : String :=
  String.mk (s.data.map (fun c => if c = ' ' then '-' else c))

/-- Python `str.replace(" ", "")`. -/
def removeSpaces (s : String) : String :=
  String.mk (s.data.filter (fun c => c ≠ ' '))

/-- Python `str.split(sep)` for a one-character separator: empty parts are
kept, as in Python. -/
def splitOnChar (c : Char) : List Char → List (List Char)
  | [] => [[]]
  | x :: t =>
    if x = c then [] :: splitOnChar c t
    else
      match splitOnChar c t with
      | [] => [[x]]
      | p :: ps => (x :: p) :: ps

/-- Python `str.split(sep)` at `String` level. -/
def pySplitOn (c : Char) (s : String) : List String :=
  (splitOnChar c s.data).map String.mk

theorem dropWhile_length_le (p : Char → Bool) (l : List Char) :
    (l.dropWhile p).length ≤ l.length := by
  induction l with
  | nil => simp [List.dropWhile]
  | cons c t ih =>
    simp only [List.dropWhile]
    by_cases h : p c <;> simp [h]
    · exact Nat.le_succ_of_le ih

/-- Python whitespace split `str.split()`: maximal nonempty runs of
non-whitespace characters.  A non-space character starts a new run when the
next character is a space or the end, and otherwise joins the run the rest
of the list starts with. -/
def pySplitChars : List Char → List (List Char)
  | [] => []
  | c :: t =>
    if isSpace c then pySplitChars t
    else
      match t with
      | [] => [[c]]
      | c2 :: _ =>
        if isSpace c2 then [c] :: pySplitChars t
        else
          match pySplitChars t with
          | w :: ws => (c :: w) :: ws
          | [] => [[c]]

/-- Python `str.split()` at `String` level. -/
def pySplit (s : String) : List String := (pySplitChars s.data).map String.mk

/-- Python `" ".join(words)`. -/
def joinSp : List String → String
  | [] => ""
  | [w] => w
  | w :: rest => w ++ " " ++ joinSp rest

/-- First-argument-as-pattern matcher: does `l` start with `pat`? -/
def startsWithL : List Char → List Char → Bool
  | [], _ => true
  | _ :: _, [] => false
  | p :: ps, c :: cs => p = c && startsWithL ps cs

/-- Python substring containment `pat in l`. -/
def containsSub (pat : List Char) : List Char → Bool
  | [] => startsWithL pat []
  | c :: t => startsWithL pat (c :: t) || containsSub pat t

/-- Suffix of `l` right after the first occurrence of the literal `pat`
(`re.search` on a literal pattern), or `none`. -/
def searchLit (pat : List Char) : List Char → Option (List Char)
  | [] => if startsWithL pat [] then some [] else none
  | c :: t =>
    if startsWithL pat (c :: t) then some ((c :: t).drop pat.length)
    else searchLit pat t

/-- Association-list lookup with plain string equality (Python dict read). -/
def mGetS : List (String × String) → String → Option String
  | [], _ => none
  | (k, v) :: t, key => if key = k then some v else mGetS t key

theorem searchLit_length_lt {pat l rest : List Char} (hpat : pat ≠ [])
    (h : searchLit pat l = some rest) : rest.length < l.length := by
  induction l with
  | nil =>
    simp only [searchLit] at h
    cases pat with
    | nil => exact absurd rfl hpat
    | cons p ps => simp [startsWithL] at h
  | cons c t ih =>
    simp only [searchLit] at h
    by_cases hs : startsWithL pat (c :: t) = true
    · rw [if_pos hs] at h
      cases pat with
      | nil => exact absurd rfl hpat
      | cons p ps =>
        have : rest = t.drop ps.length := by
          simpa [List.drop] using h.symm
        subst this
        simp only [List.length_cons, List.length_drop]
        omega
    · rw [if_neg hs] at h
      exact Nat.lt_succ_of_lt (ih h)

/-! ### Text heuristics (`fix_name_casing`, `shorten_description`) -/

/-- Abbreviation table of `fix_name_casing`, keyed by lowercase form. -/
def ABBREV : List (String × String) :=
  [("qa", "QA"), ("ui", "UI"), ("ux", "UX"), ("ui/ux", "UI/UX"),
   ("api", "API"), ("ci", "CI"), ("cd", "CD"), ("pr", "PR"),
   ("prd", "PRD"), ("cto", "CTO"), ("ceo", "CEO"), ("devops", "DevOps"),
   ("bizops", "BizOps"), ("github", "GitHub"), ("devtools", "DevTools")]

/-- Replacement of a single word in `fix_name_casing`'s per-word loop. -/
def fixWord (w : String) : String :=
  match mGetS ABBREV (pyLower w) with
  | some v => v
  | none => w

/-- Translation of `fix_name_casing`: whole-string table hit, else per-word
replacement on the whitespace-split words rejoined with single spaces. -/
def fixNameCasing (s : String) : String :=
  match mGetS ABBREV (pyLower s) with
  | some v => v
  | none => joinSp ((pySplit s).map fixWord)

/-- Group 1 of the first successful match of `specializing in ([^.]+)`
(`re.search` semantics: positions are scanned left to right; a position
where the literal is immediately followed by `.` or end of text does not
match and scanning resumes at the next position). -/
def specTargetL : List Char → Option (List Char)
  | [] => none
  | c :: t =>
    if startsWithL "specializing in ".data (c :: t) then
      match ((c :: t).drop 16).takeWhile (fun x => x ≠ '.') with
      | [] => specTargetL t
      | g => some g
    else specTargetL t

/-- Group 1 of `specializing in ([^.]+)` searched in a string. -/
def specTarget (s : String) : Option String :=
  (specTargetL s.data).map String.mk

/-- Group 1 of the first successful match of `(?:for|covering) ([^.]+)`:
positions are scanned left to right; at each one the literal alternatives
followed by a space and at least one non-period character are tried. -/
def forTargetL : List Char → Option (List Char)
  | [] => none
  | c :: t =>
    let tryAt : List Char → Option (List Char) := fun lit =>
      if startsWithL lit (c :: t) then
        match ((c :: t).drop lit.length).takeWhile (fun x => x ≠ '.') with
        | [] => none
        | g => some g
      else none
    match tryAt "for ".data with
    | some g => some g
    | none =>
      match tryAt "covering ".data with
      | some g => some g
      | none => forTargetL t

/-- Group 1 of `(?:for|covering) ([^.]+)` searched in a string. -/
def forTarget (s : String) : Option String :=
  (forTargetL s.data).map String.mk

/-- Test for `re.match(r'^(?:a|an|the)\s', target, re.IGNORECASE)`. -/
def startsArticle (s : String) : Bool :=
  let l := s.data.map Char.toLower
  (match l with | 'a' :: c :: _ => isSpace c | _ => false) ||
  (match l with | 'a' :: 'n' :: c :: _ => isSpace c | _ => false) ||
  (match l with | 't' :: 'h' :: 'e' :: c :: _ => isSpace c | _ => false)

/-- Separator consumption for one match of `,\s*(?:and\s+)?` (the comma
itself has already been consumed). -/
def consumeSep (t : List Char) : List Char :=
  let t1 := t.dropWhile isSpace
  if startsWithL "and".data t1 then
    match t1.drop 3 with
    | c :: rest2 => if isSpace c then (c :: rest2).dropWhile isSpace else t1
    | [] => t1
  else t1

theorem consumeSep_length_le (t : List Char) :
    (consumeSep t).length ≤ t.length := by
  unfold consumeSep
  have h1 : (t.dropWhile isSpace).length ≤ t.length := dropWhile_length_le _ _
  by_cases hs : startsWithL "and".data (t.dropWhile isSpace) = true
  · simp only [hs, if_true]
    cases hd : (t.dropWhile isSpace).drop 3 with
    | nil => simpa [hd] using h1
    | cons c rest2 =>
      simp only [hd]
      by_cases hc : isSpace c = true
      · simp only [hc, if_true]
        calc ((c :: rest2).dropWhile isSpace).length
            ≤ (c :: rest2).length := dropWhile_length_le _ _
          _ = ((t.dropWhile isSpace).drop 3).length := by rw [hd]
          _ ≤ (t.dropWhile isSpace).length := by
              rw [List.length_drop]; omega
          _ ≤ t.length := h1
      · simpa [hc] using h1
  · simpa [hs] using h1

/-- Translation of `re.split(r',\s*(?:and\s+)?', s)`. -/
def splitCA : List Char → List Char → List (List Char)
  | [], acc => [acc.reverse]
  | c :: t, acc =>
    if c = ',' then acc.reverse :: splitCA (consumeSep t) []
    else splitCA t (c :: acc)
termination_by l _ => l.length
decreasing_by
  all_goals simp_wf
  all_goals exact Nat.lt_succ_of_le (consumeSep_length_le t)

/-- Shared tail of the two pattern branches of `shorten_description`:
split the captured text on `,\s*(?:and\s+)?`, strip the parts, and join
the first one (title-cased) with the second through `fix_name_casing`. -/
def joinParts (target : String) : String :=
  let parts := (splitCA target.data []).map (fun p => pyStrip (String.mk p))
  match parts with
  | p0 :: p1 :: _ => fixNameCasing (pyTitle p0 ++ " & " ++ p1)
  | [p0] => fixNameCasing (pyTitle p0)
  | [] => fixNameCasing (pyTitle "")

/-- Python slice `s[:k]` for a possibly negative `k`. -/
def pySliceTo (s : String) (k : Int) : String :=
  let m : Int := if k < 0 then (s.data.length : Int) + k else k
  String.mk (s.data.take m.toNat)

/-- Pattern-free tail of `shorten_description`: first sentence, then first
clause, then hard truncation with an ellipsis. -/
def sdFallback (desc : String) (maxLen : Nat) : String :=
  let first := String.mk ((splitOnChar '.' desc.data).headD [])
  let clause := String.mk ((splitOnChar ',' first.data).headD [])
  if clause.length ≤ maxLen then fixNameCasing clause
  else if first.length ≤ maxLen then fixNameCasing first
  else fixNameCasing (pySliceTo first ((maxLen : Int) - 3) ++ "...")

/-- Translation of `shorten_description`. -/
def shortenDescription (desc : String) (maxLen : Nat := 40) : String :=
  if desc = "" ∨ desc.length ≤ maxLen then desc
  else
    match specTarget desc with
    | some t => joinParts t
    | none =>
      match forTarget desc with
      | some t0 =>
        if ¬ startsArticle (pyStrip t0) then joinParts (pyStrip t0)
        else sdFallback desc maxLen
      | none => sdFallback desc maxLen

/-! ### Frontmatter parsing (`parse_frontmatter`) -/

/-- Value of a frontmatter key: a scalar string or a list of strings. -/
inductive MetaVal where
  | str (s : String)
  | list (l : List String)
deriving DecidableEq, Repr

/-- Python truthiness of a frontmatter value. -/
def MetaVal.truthy : MetaVal → Bool
  | .str s => s ≠ ""
  | .list l => l ≠ []

/-- Frontmatter mapping, as an insertion-ordered dict. -/
abbrev Meta := List (String × MetaVal)

/-- Dict write: overwrite in place if the key exists, else append. -/
def dictInsert {α : Type} (m : List (String × α)) (k : String) (v : α) :
    List (String × α) :=
  match m with
  | [] => [(k, v)]
  | (k0, v0) :: t => if k0 = k then (k, v) :: t else (k0, v0) :: dictInsert t k v

/-- Dict read. -/
def mGet : Meta → String → Option MetaVal
  | [], _ => none
  | (k, v) :: t, key => if key = k then some v else mGet t key

/-- Group 1 (stripped) of `re.match(r'^\s+-\s+(.+)$', line)`: leading
whitespace, a hyphen, more whitespace (at least one character, greedily
keeping at least one character for the group), then the item text. -/
def bulletContent (l : List Char) : Option String :=
  let w1 := l.takeWhile isSpace
  if w1 = [] then none
  else
    match l.drop w1.length with
    | '-' :: t =>
      if t.all isSpace then
        if 2 ≤ t.length then some "" else none
      else
        let u := t.takeWhile isSpace
        if u = [] then none else some (pyStrip (String.mk (t.drop u.length)))
    | _ => none

/-- Single-quote character (written via its code point). -/
def squote : Char := Char.ofNat 39

/-- Python `line.split(':', 1)` assuming `':' ∈ line`. -/
def splitFirstColon (l : List Char) : List Char × List Char :=
  (l.takeWhile (fun c => c ≠ ':'), (l.dropWhile (fun c => c ≠ ':')).drop 1)

/-- Items of an inline list value matching `re.match(r'^\[(.+)\]$', val)`:
the bracketed text split on commas, each item stripped of whitespace and
then of surrounding double and single quotes. -/
def inlineItems (val : List Char) : Option (List String) :=
  match val with
  | '[' :: rest =>
    if 2 ≤ rest.length ∧ rest.getLast? = some ']' then
      some ((splitOnChar ',' (rest.take (rest.length - 1))).map
        (fun p => pyStripChar squote (pyStripChar '"' (pyStrip (String.mk p)))))
    else none
  | _ => none

/-- State of `parse_frontmatter`'s line loop: the mapping built so far,
`current_key` and `current_list`. -/
structure MetaState where
  meta : Meta
  ck : Option String
  cl : Option (List String)
deriving Repr

/-- Python truthiness of `current_key` (an empty-string key is falsy). -/
def ckTruthy : Option String → Bool
  | some k => k ≠ ""
  | none => false

/-- One iteration of `parse_frontmatter`'s loop over the header lines. -/
def metaStep (st : MetaState) (line : String) : MetaState :=
  match bulletContent line.data with
  | some item =>
    if ckTruthy st.ck then { st with cl := some (st.cl.getD [] ++ [item]) }
    else keyPhase st line
  | none => keyPhase st line
where
  /-- Flush a pending list, then handle a possible `key:` line. -/
  keyPhase (st : MetaState) (line : String) : MetaState :=
    let st1 :=
      if st.cl.isSome ∧ ckTruthy st.ck then
        { st with meta := dictInsert st.meta (st.ck.getD "") (.list (st.cl.getD [])),
                  cl := none }
      else st
    if (':' ∈ line.data) ∧ line.data.head? ≠ some ' ' then
      let (k0, v0) := splitFirstColon line.data
      let key := pyStrip (String.mk k0)
      let val := pyStrip (String.mk v0)
      let st2 := { st1 with ck := some key }
      if val ≠ "" then
        match inlineItems val.data with
        | some items => { st2 with meta := dictInsert st2.meta key (.list items) }
        | none => { st2 with meta := dictInsert st2.meta key (.str val) }
      else st2
    else st1

/-- Run the header-line loop and do the final list flush. -/
def parseMetaLines (lines : List String) : Meta :=
  let st := lines.foldl metaStep ⟨[], none, none⟩
  if st.cl.isSome ∧ ckTruthy st.ck then
    dictInsert st.meta (st.ck.getD "") (.list (st.cl.getD []))
  else st.meta

/-- All ways to read `\s*\n` at the front of `l`, greediest first: pairs of
the consumed whitespace and the remainder after the newline. -/
def wsNlSplits (l : List Char) : List (List Char × List Char) :=
  (List.range (l.length + 1)).reverse.filterMap fun k =>
    if (l.take k).all isSpace ∧ l.get? k = some '\n' then
      some (l.take k, l.drop (k + 1))
    else none

/-- Match of `re.match(r'^---\s*\n(.*?)\n---\s*\n(.*)$', content, re.DOTALL)`
with the engine's backtracking priorities (greedy `\s*`, lazy `(.*?)`):
returns the header text (group 1) and the body (group 2). -/
def fmSplit (s : List Char) : Option (List Char × List Char) :=
  if s.take 3 = ['-', '-', '-'] then
    (wsNlSplits (s.drop 3)).findSome? fun pr =>
      (List.range (pr.2.length + 1)).findSome? fun i =>
        if (pr.2.drop i).take 4 = ['\n', '-', '-', '-'] then
          (wsNlSplits ((pr.2.drop i).drop 4)).head?.map fun pr2 =>
            (pr.2.take i, pr2.2)
        else none
  else none

/-- Translation of `parse_frontmatter`. -/
def parseFrontmatter (content : String) : Meta × String :=
  match fmSplit content.data with
  | none => ([], content)
  | some (raw, body) =>
    (parseMetaLines ((splitOnChar '\n' raw).map String.mk), String.mk body)

/-- A string decomposes as a three-hyphen frontmatter block: `---`, optional
whitespace, a newline, header text, a newline, `---`, optional whitespace, a
newline, and the body. -/
def HasFM (l : List Char) : Prop :=
  ∃ w a w2 b, l = ['-', '-', '-'] ++ w ++ '\n' :: a ++ ['\n', '-', '-', '-']
      ++ w2 ++ '\n' :: b ∧ w.all isSpace ∧ w2.all isSpace

/-! ### Data model of `build_from_plugin`'s org config -/

/-- Skills excluded from agent cards and the lifecycle (`META_SKILLS`). -/
def META_SKILLS : List String :=
  ["sprint", "standup", "scaffold", "help", "kickoff", "story"]

/-- Agent record of the org config. -/
structure Agent where
  name : String
  model : MetaVal
  skills : List String
  knowledge_skills : List String
  mcps : List String
  cli_tools : List String
  description : MetaVal
  detail_description : MetaVal
  markdown : String
deriving DecidableEq, Repr

/-- Skill record of the org config. -/
structure Skill where
  name : String
  description : MetaVal
  detail_description : MetaVal
  markdown : String
deriving DecidableEq, Repr

/-- MCP tool-integration record. -/
structure Mcp where
  name : String
  description : String
  detail_description : String
deriving DecidableEq, Repr

/-- CLI-tool record. -/
structure CliTool where
  name : String
  description : String
deriving DecidableEq, Repr

/-- Team record; `description` is absent from discovery-built teams and is
modelled as the empty string (Python `tm.get("description", "")`). -/
structure Team where
  name : String
  members : List String
  description : String
deriving DecidableEq, Repr

/-- Alternate-path record; the `replaces` and `type` keys appear on some
entries only and are modelled as options. -/
structure AltPath where
  name : String
  description : String
  replaces : Option (List String)
  typ : Option String
deriving DecidableEq, Repr

/-- Utility-skill (meta-skill) view record. -/
structure UtilSkill where
  name : String
  description : MetaVal
  agents : List String
deriving DecidableEq, Repr

/-- The org config assembled by `build_from_plugin`. -/
structure Config where
  name : String
  agents : List Agent
  skills : List Skill
  mcps : List Mcp
  cli_tools : List CliTool
  teams : List Team
  lifecycle : List String
  alternate_paths : List AltPath
  utility_skills : List UtilSkill
deriving DecidableEq, Repr

/-- Input to `build_from_plugin`: the relevant contents of the plugin
directory.  `pluginJson` is the optional `name` field of an optional
`.claude-plugin/plugin.json`; `agentFiles` are the `(stem, content)` pairs
of `agents/*.md` in sorted order; `skillDirs` are the subdirectories of
`skills/` in sorted order paired with the content of their `SKILL.md` when
it exists; `mcpServers` is the `mcpServers` mapping of an optional
`.mcp.json` as `(name, command, args)` triples. -/
structure PluginDir where
  pluginJson : Option (Option String)
  claudeMd : Option String
  agentFiles : List (String × String)
  skillDirs : List (String × Option String)
  mcpServers : Option (List (String × String × List String))
deriving DecidableEq, Repr

/-! ### Discovery (`build_from_plugin`) -/

/-- Read a frontmatter field expected to be a string; `none` models the
`AttributeError` CPython raises downstream when the value is a list. -/
def getMetaStr (m : Meta) (key dflt : String) : Option String :=
  match mGet m key with
  | some (.str s) => some s
  | some (.list _) => none
  | none => some dflt

/-- Apply `shorten_description` to a frontmatter value: on a string it is
the translated function; a list shorter than the length budget is returned
unchanged (`len(desc) <= max_len` holds for Python lists too), and a longer
list makes `re.search` raise, modelled as `none`. -/
def shortenV : MetaVal → Option MetaVal
  | .str s => some (.str (shortenDescription s 40))
  | .list l => if l.length ≤ 40 then some (.list l) else none

/-- Processing of one `agents/*.md` file: `some none` when the file is
skipped because its agent name is `observer` (case-insensitively), `none`
when CPython would raise. -/
def discoverAgentFile (f : String × String) : Option (Option Agent) := do
  let pf := parseFrontmatter f.2
  let meta := pf.1
  let body := pf.2
  let agentName ← getMetaStr meta "name" f.1
  if pyLower agentName = "observer" then
    pure none
  else
    let fullDesc := (mGet meta "description").getD (.str "")
    let displayName := fixNameCasing (pyTitle (dashToSpace agentName))
    let rawSkills : List String :=
      match mGet meta "skills" with
      | some (.str s) => ((pySplitOn ',' s).map pyStrip).filter (fun x => x ≠ "")
      | some (.list l) => l
      | none => []
    let shortDesc ← shortenV fullDesc
    pure (some
      { name := displayName
        model := (mGet meta "model").getD (.str "inherit")
        skills := []
        knowledge_skills := rawSkills
        mcps := []
        cli_tools := []
        description := shortDesc
        detail_description := fullDesc
        markdown := pyStrip body })

/-- Agent discovery over the sorted `agents/*.md` files. -/
def discoverAgents (files : List (String × String)) : Option (List Agent) :=
  (files.mapM discoverAgentFile).map (fun l => l.filterMap id)

/-- Skill discovery over the sorted `skills/*` directories: returns the
skill list and the `skill_bodies` dict. -/
def discoverSkills (dirs : List (String × Option String)) :
    Option (List Skill × List (String × String)) :=
  dirs.foldlM
    (fun acc dir =>
      match dir.2 with
      | none => pure acc
      | some content => do
        let (meta, body) := parseFrontmatter content
        let skillName ← getMetaStr meta "name" dir.1
        let fullDesc := (mGet meta "description").getD (.str "")
        let shortDesc ← shortenV fullDesc
        pure (acc.1 ++ [{ name := skillName, description := shortDesc,
                          detail_description := fullDesc,
                          markdown := pyStrip body }],
              dictInsert acc.2 skillName body))
    ([], [])

/-- Character class `\w` (ASCII fragment). -/
def wordChar (c : Char) : Bool := c.isAlphanum || c = '_'

/-- Fuel-bounded scan for `re.findall(r'@(\w[\w-]*)', body)`: scanning
resumes after each match; a step consumes at least one character, so fuel
equal to the list length never runs out. -/
def findMentionsF : Nat → List Char → List String
  | 0, _ => []
  | _, [] => []
  | fuel + 1, '@' :: t =>
    match t with
    | [] => []
    | c :: t2 =>
      if wordChar c then
        let r := t2.takeWhile (fun x => wordChar x || x = '-')
        String.mk (c :: r) :: findMentionsF fuel (t2.drop r.length)
      else findMentionsF fuel (c :: t2)
  | fuel + 1, _ :: t => findMentionsF fuel t

/-- All group-1 captures of `re.findall(r'@(\w[\w-]*)', body)`. -/
def findMentions (l : List Char) : List String := findMentionsF l.length l

/-- Last index satisfying a predicate (a Python dict comprehension keyed by
a derived name keeps the value of the last item producing each key). -/
def findLastIdx {α : Type} (p : α → Bool) (l : List α) : Option Nat :=
  l.enum.foldl (fun acc pr => if p pr.2 then some pr.1 else acc) none

/-- Lookup into the `agent_name_lower` dict: keys added slug-first, then
concatenated, then plain lowercase, so the plain-lowercase key wins, and
within each family the last agent wins. -/
def lookupAgentIdx (agents : List Agent) (ref : String) : Option Nat :=
  match findLastIdx (fun a => pyLower a.name = ref) agents with
  | some i => some i
  | none =>
    match findLastIdx (fun a => removeSpaces (pyLower a.name) = ref) agents with
    | some i => some i
    | none => findLastIdx (fun a => spaceToDash (pyLower a.name) = ref) agents

/-- In-place update of the agent at an index. -/
def updAgent (ags : List Agent) (i : Nat) (f : Agent → Agent) : List Agent :=
  match ags.get? i with
  | some a => ags.set i (f a)
  | none => ags

/-- Append an operational skill if it is not already present. -/
def addOpSkill (sn : String) (a : Agent) : Agent :=
  { a with skills := if sn ∈ a.skills then a.skills else a.skills ++ [sn] }

/-- One `@ref` mention handled: resolve the reference against the agent
name dict and append the skill to the resolved agent, if any. -/
def inferStep (agents : List Agent) (sn : String) (ags2 : List Agent)
    (ref : String) : List Agent :=
  match lookupAgentIdx agents (pyLower ref) with
  | some i => updAgent ags2 i (addOpSkill sn)
  | none => ags2

/-- One skill body handled: meta skills are skipped, otherwise every
`@ref` mention of the body is processed in order. -/
def inferBody (agents : List Agent) (ags : List Agent)
    (p : String × String) : List Agent :=
  if p.1 ∈ META_SKILLS then ags
  else (findMentions p.2.data).foldl (inferStep agents p.1) ags

/-- Forward relationship inference: scan each non-meta skill body for
`@agent` references and append the skill to the referenced agent. -/
def forwardInference (bodies : List (String × String)) (agents : List Agent) :
    List Agent :=
  bodies.foldl (inferBody agents) agents

/-- Match of `re.search(r'When Delegated To.*?$', body, re.DOTALL |
re.MULTILINE)`: with multiline `$` and a lazy quantifier this is the text
from the first occurrence of the literal to the end of that line. -/
def delegatedSection (body : String) : Option String :=
  match searchLit "When Delegated To".data body.data with
  | none => none
  | some rest =>
    some (String.mk ("When Delegated To".data ++ rest.takeWhile (fun c => c ≠ '\n')))

/-- Keep only the first occurrence of each element (Python set iteration is
modelled as first-insertion order). -/
def dedupFirst (l : List String) : List String :=
  l.foldl (fun acc x => if x ∈ acc then acc else acc ++ [x]) []

/-- Reverse relationship inference: scan each agent's "When Delegated To"
section for `/skill` or backtick-quoted skill references. -/
def reverseInference (skillNames : List String) (agents : List Agent) :
    List Agent :=
  agents.map fun a =>
    match delegatedSection a.markdown with
    | none => a
    | some sec =>
      skillNames.foldl
        (fun a2 sn =>
          if sn ∈ META_SKILLS then a2
          else if containsSub ("/" ++ sn).data sec.data
              || containsSub ("`" ++ sn ++ "`").data sec.data then
            addOpSkill sn a2
          else a2)
        a

/-- MCP record from one `mcpServers` entry. -/
def mkMcp (server : String × String × List String) : Mcp :=
  { name := fixNameCasing (pyTitle (dashToSpace server.1))
    description := ""
    detail_description :=
      if server.2.1 ≠ "" then
        "Command: " ++ server.2.1 ++ " " ++ joinSp (server.2.2.take 2)
      else "" }

/-- Characters up to (excluding) the first occurrence of a literal, or the
whole list when the literal never occurs. -/
def takeUntilSub (pat : List Char) : List Char → List Char
  | [] => []
  | c :: t => if startsWithL pat (c :: t) then [] else c :: takeUntilSub pat t

/-- Group 1 of `re.search(r'### CLI Tools\n(.*?)(?=\n###|\n##|\Z)', s,
re.DOTALL)`: the lazy group runs to the first `\n##` (which also covers
`\n###`) or to the end. -/
def cliSectionText (claude : String) : Option String :=
  match searchLit "### CLI Tools\n".data claude.data with
  | none => none
  | some rest => some (String.mk (takeUntilSub "\n##".data rest))

/-- One attempt of `\*\*([^*]+?)(?:\s*\([^)]*\))?\*\*` at a fixed position:
the lazy name group grows until the optional parenthesised suffix (tried
greedily) and the closing `**` fit. -/
def boldNameAt (l : List Char) : Option (List Char) :=
  if startsWithL "**".data l then
    let r := l.drop 2
    let restOk : List Char → Bool := fun rst =>
      let parenTry : Option (List Char) :=
        let w := rst.takeWhile isSpace
        match rst.drop w.length with
        | '(' :: t2 =>
          let inner := t2.takeWhile (fun c => c ≠ ')')
          match t2.drop inner.length with
          | ')' :: after => some after
          | _ => none
        | _ => none
      (match parenTry with
       | some r2 => startsWithL "**".data r2
       | none => false) || startsWithL "**".data rst
    ((List.range (r.length + 1)).drop 1).findSome? fun n =>
      if (r.take n).all (fun c => c ≠ '*') ∧ restOk (r.drop n) then
        some (r.take n)
      else none
  else none

/-- First match of the bold tool-name pattern in a line (`re.search`). -/
def boldNameSearch : List Char → Option (List Char)
  | [] => none
  | c :: t =>
    match boldNameAt (c :: t) with
    | some g => some g
    | none => boldNameSearch t

/-- Group 1 (stripped) of `re.search(r'\*\*:\s*(.+)', line)`: the text after
the first `**:` that is followed by at least one character; stripping the
group makes the greedy/backtracking details of `\s*(.+)` immaterial. -/
def descSearch : List Char → Option String
  | [] => none
  | c :: t =>
    if startsWithL "**:".data (c :: t) ∧ (c :: t).drop 3 ≠ [] then
      some (pyStrip (String.mk ((c :: t).drop 3)))
    else descSearch t

/-- CLI-tool discovery from the `### CLI Tools` section of CLAUDE.md. -/
def discoverCliTools (claude : String) : List CliTool :=
  match cliSectionText claude with
  | none => []
  | some sec =>
    (pySplitOn '\n' sec).foldl
      (fun acc line =>
        if (pyStrip line).data.head? ≠ some '-' then acc
        else
          match boldNameSearch line.data with
          | none => acc
          | some g =>
            acc ++ [{ name := fixNameCasing (pyStrip (String.mk g)),
                      description := (descSearch line.data).getD "" }])
      []

/-- Lazy tail of `re.search(r'Tool Access.*?(?=^#[^#]|\Z)', s, re.DOTALL |
re.MULTILINE)` after the literal: stops at the first line start followed by
`#` and a non-`#` character, or at the end.  The boolean tracks whether the
current position is a line start. -/
def takeToHeading : List Char → Bool → List Char
  | [], _ => []
  | c :: t, atLS =>
    if atLS && c = '#' && (match t with | c2 :: _ => c2 ≠ '#' | [] => false) then []
    else c :: takeToHeading t (c = '\n')

/-- Whole match (group 0) of the Tool Access section search. -/
def toolAccessSection (claude : String) : Option String :=
  match searchLit "Tool Access".data claude.data with
  | none => none
  | some rest =>
    some (String.mk ("Tool Access".data ++ takeToHeading rest false))

/-- Per-bullet MCP assignment from the Tool Access section. -/
def assignMcps (claude : String) (mcps : List Mcp) (agents : List Agent) :
    List Agent :=
  match toolAccessSection claude with
  | none => agents
  | some sec =>
    (pySplitOn '\n' sec).foldl
      (fun ags line =>
        if (pyStrip line).data.head? ≠ some '-' then ags
        else
          let ll := pyLower line
          match mcps.find? (fun m => containsSub (pyLower m.name).data ll.data) with
          | none => ags
          | some m =>
            ags.map fun a =>
              if containsSub (pyLower a.name).data ll.data then
                { a with mcps := if m.name ∈ a.mcps then a.mcps
                                 else a.mcps ++ [m.name] }
              else a)
      agents

/-- Role-based fallback MCP assignment for agents with no MCPs; reading
`detail_description.lower()` on a list-valued field raises, modelled as
`none`. -/
def mcpFallback (mcps : List Mcp) (agents : List Agent) : Option (List Agent) :=
  agents.mapM fun a =>
    if a.mcps = [] ∧ mcps ≠ [] then
      match a.detail_description with
      | .list _ => none
      | .str d =>
        let tools := pyLower d
        let al := pyLower a.name
        some (mcps.foldl
          (fun a2 m =>
            let ml := pyLower m.name
            if containsSub "devtools".data ml.data
                ∧ (containsSub "ui".data tools.data
                   || containsSub "design".data al.data) then
              { a2 with mcps := a2.mcps ++ [m.name] }
            else if containsSub "context".data ml.data
                ∧ containsSub "research".data al.data then
              { a2 with mcps := a2.mcps ++ [m.name] }
            else a2)
          a)
    else some a

/-- CLI-tool assignment: a tool whose name contains `github` goes to agents
named exactly `engineer` or `qa`. -/
def assignCliTools (cliTools : List CliTool) (agents : List Agent) :
    List Agent :=
  agents.map fun a =>
    let al := pyLower a.name
    cliTools.foldl
      (fun a2 t =>
        if containsSub "github".data (pyLower t.name).data
            ∧ (al = "engineer" ∨ al = "qa") then
          { a2 with cli_tools := a2.cli_tools ++ [t.name] }
        else a2)
      a

/-- One `/namespace:step` token: returns its text and the remainder. -/
def lcToken : List Char → Option (List Char × List Char)
  | '/' :: t =>
    let r1 := t.takeWhile (fun c => wordChar c || c = '-')
    if r1 = [] then none
    else
      match t.drop r1.length with
      | ':' :: t2 =>
        let r2 := t2.takeWhile (fun c => wordChar c || c = '-')
        if r2 = [] then none
        else some ('/' :: r1 ++ ':' :: r2, t2.drop r2.length)
      | _ => none
  | _ => none

/-- Greedy repetitions of `\s*→\s*` followed by a token (fuel-bounded; each
repetition consumes at least one character, so fuel equal to the remaining
length never runs out). -/
def lcReps : Nat → List Char → List (List Char) × List Char
  | 0, l => ([], l)
  | fuel + 1, l =>
    let w1 := l.takeWhile isSpace
    match l.drop w1.length with
    | '→' :: t2 =>
      let w2 := t2.takeWhile isSpace
      match lcToken (t2.drop w2.length) with
      | some (tok, rest) =>
        let (reps, fin) := lcReps fuel rest
        ((w1 ++ '→' :: (w2 ++ tok)) :: reps, fin)
      | none => ([], l)
    | _ => ([], l)

/-- Match of the lifecycle chain pattern at a fixed position. -/
def lcChainAt (l : List Char) : Option (List Char) :=
  match lcToken l with
  | none => none
  | some (tok, rest) =>
    let (reps, _) := lcReps rest.length rest
    if reps = [] then none else some (tok ++ reps.join)

/-- First match of `(/[\w-]+:[\w-]+(?:\s*→\s*/[\w-]+:[\w-]+)+)`. -/
def lcSearch : List Char → Option (List Char)
  | [] => none
  | c :: t =>
    match lcChainAt (c :: t) with
    | some m => some m
    | none => lcSearch t

/-- Lifecycle from the CLAUDE.md chain, or the filtered default list. -/
def parseLifecycle (claude : String) (skillNames : List String) : List String :=
  let lc :=
    match lcSearch claude.data with
    | some m =>
      (splitOnChar '→' m).map fun part =>
        pyStrip (String.mk ((splitOnChar ':' part).getLast?.getD []))
    | none => []
  if lc ≠ [] then lc
  else
    ["discover", "spec", "design", "build", "review", "ship"].filter
      (fun s => s ∈ skillNames)

/-- One `@[\w-]+` reference: its text (with the `@`) and the remainder. -/
def atRef : List Char → Option (List Char × List Char)
  | '@' :: t =>
    let r := t.takeWhile (fun c => wordChar c || c = '-')
    if r = [] then none else some ('@' :: r, t.drop r.length)
  | _ => none

/-- Greedy repetitions of `\s*\+\s*@[\w-]+` (fuel-bounded). -/
def teamReps : Nat → List Char → List (List Char) × List Char
  | 0, l => ([], l)
  | fuel + 1, l =>
    let w1 := l.takeWhile isSpace
    match l.drop w1.length with
    | '+' :: t2 =>
      let w2 := t2.takeWhile isSpace
      match atRef (t2.drop w2.length) with
      | some (ref, rest) =>
        let (reps, fin) := teamReps fuel rest
        ((w1 ++ '+' :: (w2 ++ ref)) :: reps, fin)
      | none => ([], l)
    | _ => ([], l)

/-- Match of `\*\*([^*]+)\*\*:\s*(@[\w-]+(?:\s*\+\s*@[\w-]+)*)` at a
fixed position: group 1, group 2 and the remainder after the match. -/
def teamPatAt (l : List Char) : Option (String × List Char × List Char) :=
  if startsWithL "**".data l then
    let r := l.drop 2
    let g1 := r.takeWhile (fun c => c ≠ '*')
    if g1 = [] then none
    else
      match r.drop g1.length with
      | '*' :: '*' :: ':' :: t =>
        let w := t.takeWhile isSpace
        match atRef (t.drop w.length) with
        | none => none
        | some (ref0, rest0) =>
          let (reps, fin) := teamReps rest0.length rest0
          some (String.mk g1, ref0 ++ reps.join, fin)
      | _ => none
  else none

/-- All (group 1, group 2) pairs of the team pattern, scanning left to
right and resuming after each match (`re.findall`; fuel-bounded, each step
consumes at least one character). -/
def teamFindall : Nat → List Char → List (String × List Char)
  | 0, _ => []
  | _, [] => []
  | fuel + 1, c :: t =>
    match teamPatAt (c :: t) with
    | some (g1, g2, fin) => (g1, g2) :: teamFindall fuel fin
    | none => teamFindall fuel t

/-- Fuel-bounded scan for `re.findall(r'@([\w-]+)', members_str)`. -/
def refFindallF : Nat → List Char → List String
  | 0, _ => []
  | _, [] => []
  | fuel + 1, '@' :: t =>
    let r := t.takeWhile (fun c => wordChar c || c = '-')
    if r = [] then refFindallF fuel t
    else String.mk r :: refFindallF fuel (t.drop r.length)
  | fuel + 1, _ :: t => refFindallF fuel t

/-- All group-1 captures of `re.findall(r'@([\w-]+)', members_str)`. -/
def refFindall (l : List Char) : List String := refFindallF l.length l

/-- Last element satisfying a predicate. -/
def findLastA {α : Type} (p : α → Bool) (l : List α) : Option α :=
  l.foldl (fun acc x => if p x then some x else acc) none

/-- Team parsing from CLAUDE.md with the skill-bucket fallback. -/
def parseTeams (claude : String) (agents : List Agent) : List Team :=
  let agentNamesSet := agents.map (fun a => pyLower a.name)
  let teams :=
    (teamFindall claude.data.length claude.data).foldl
      (fun ts pr =>
        let resolved :=
          (refFindall pr.2).foldl
            (fun res ref =>
              let rl := dashToSpace (pyLower ref)
              match findLastA (fun a => pyLower a.name = rl) agents with
              | some a => res ++ [a.name]
              | none =>
                if rl ∈ agentNamesSet then
                  res ++ [fixNameCasing (pyTitle (dashToSpace ref))]
                else res)
            []
        if resolved ≠ [] then
          ts ++ [{ name := pyStrip pr.1, members := resolved, description := "" }]
        else ts)
      []
  if teams = [] ∧ 3 ≤ agents.length then
    let discovery := (agents.filter (fun a => "discover" ∈ a.skills)).map (·.name)
    let build := (agents.filter fun a =>
      "build" ∈ a.skills ∨ "design" ∈ a.skills ∨ "review" ∈ a.skills).map (·.name)
    let ship := (agents.filter fun a =>
      "ship" ∈ a.skills ∨ "release-notes" ∈ a.skills).map (·.name)
    (if discovery ≠ [] then
      [{ name := "Discovery Sprint", members := discovery, description := "" }]
     else []) ++
    (if build ≠ [] then
      [{ name := "Build & QA", members := build, description := "" }]
     else []) ++
    (if ship ≠ [] then
      [{ name := "Ship & Launch", members := ship, description := "" }]
     else [])
  else teams

/-- Alternate paths built from the meta-skills that were discovered. -/
def buildAltPaths (skills : List Skill) : List AltPath :=
  let names := skills.map (·.name)
  (if "sprint" ∈ names then
    [{ name := "sprint", description := "Batch-execute multiple tickets in parallel",
       replaces := some ["build"], typ := none }]
   else []) ++
  (if "kickoff" ∈ names then
    [{ name := "kickoff", description := "Team meeting — use at any point",
       replaces := none, typ := some "anytime" }]
   else []) ++
  (if "standup" ∈ names then
    [{ name := "standup", description := "Daily summary",
       replaces := none, typ := some "anytime" }]
   else [])

/-- Utility-skill records: each discovered meta-skill with the display
names of the agents its body mentions. -/
def buildUtilitySkills (skills : List Skill) (bodies : List (String × String))
    (agents : List Agent) : List UtilSkill :=
  skills.foldl
    (fun acc sk =>
      if sk.name ∉ META_SKILLS then acc
      else
        let body := (mGetS bodies sk.name).getD ""
        let skAgents :=
          (findMentions body.data).foldl
            (fun sa ref =>
              match lookupAgentIdx agents (pyLower ref) with
              | some i =>
                match agents.get? i with
                | some a => if a.name ∈ sa then sa else sa ++ [a.name]
                | none => sa
              | none => sa)
            []
        acc ++ [{ name := sk.name, description := sk.description,
                  agents := skAgents }])
    []

/-- Translation of `build_from_plugin`. -/
def buildFromPlugin (d : PluginDir) : Option Config := do
  let name :=
    match d.pluginJson with
    | none => "My AI Org"
    | some none => pyTitle (dashToSpace "My AI Org")
    | some (some n) => pyTitle (dashToSpace n)
  let claude := d.claudeMd.getD ""
  let agents0 ← discoverAgents d.agentFiles
  let sk ← discoverSkills d.skillDirs
  let skills := sk.1
  let skillBodies := sk.2
  let agents1 := forwardInference skillBodies agents0
  let skillNames := dedupFirst (skills.map (·.name))
  let agents2 := reverseInference skillNames agents1
  let mcps := (d.mcpServers.getD []).map mkMcp
  let cliTools := discoverCliTools claude
  let agents3 :=
    if mcps ≠ [] ∧ claude ≠ "" then assignMcps claude mcps agents2 else agents2
  let agents4 ← mcpFallback mcps agents3
  let agents5 := assignCliTools cliTools agents4
  pure
    { name
      agents := agents5
      skills
      mcps
      cli_tools := cliTools
      teams := parseTeams claude agents5
      lifecycle := parseLifecycle claude skillNames
      alternate_paths := buildAltPaths skills
      utility_skills := buildUtilitySkills skills skillBodies agents5 }

/-! ### Renderer data assembly (`generate_html` and helpers) -/

/-- Overflow palette `AGENT_COLORS`. -/
def AGENT_COLORS : List String :=
  ["#3b82f6", "#ec4899", "#f59e0b", "#10b981", "#06b6d4", "#8b5cf6",
   "#f97316", "#14b8a6", "#a855f7", "#ef4444"]

/-- Phase definition rendered for the lifecycle (`PHASE_DEFS`). -/
structure PhaseDef where
  label : String
  color : String
deriving DecidableEq, Repr

/-- The four fixed lifecycle phases. -/
def PHASE_DEFS : List PhaseDef :=
  [⟨"Discovery", "#06b6d4"⟩, ⟨"Planning", "#ec4899"⟩,
   ⟨"Execution", "#3b82f6"⟩, ⟨"Launch", "#10b981"⟩]

/-- Icons for utility cards (`VP_ICONS`). -/
def VP_ICONS : List (String × String) :=
  [("sprint", "⚡"), ("observer", "🧠"), ("story", "📖"), ("scaffold", "🏗️"),
   ("standup", "📋"), ("help", "❓"), ("kickoff", "🤝")]

/-- Default utility-card descriptions (`VP_DEFAULTS`). -/
def VP_DEFAULTS : List (String × String) :=
  [("sprint", "Execute a batch of tickets in parallel — one Engineer per ticket, then QA and Designer review simultaneously."),
   ("story", "Turn your decision log into a publishable narrative — tutorial, case study, blog post, or launch story."),
   ("scaffold", "Design and build your own custom AI org — define your own agents, skills, and workflows from scratch."),
   ("standup", "Generate a daily summary from git history, observer log, and project artifacts."),
   ("help", "Get oriented — see your team, check project status, and find what to do next."),
   ("kickoff", "Collaborative agent team meetings — pre-configured or ad-hoc.")]

/-- Preferred display order for agents (`PREFERRED_AGENT_ORDER`). -/
def PREFERRED_AGENT_ORDER : List String :=
  ["engineer", "designer", "bizops", "qa", "researcher", "content strategist"]

/-- Preferred display order for utility cards (`PREFERRED_VP_ORDER`). -/
def PREFERRED_VP_ORDER : List String :=
  ["sprint", "observer", "story", "scaffold", "standup", "help"]

/-- Sort key of `_order_key`: position in the preferred list (its length for
unknown items) paired with the item itself. -/
def orderKey (names : List String) (item : String) : Nat × String :=
  ((findLastIdx (fun n => n = item) names).getD names.length, item)

/-- Order on sort keys: Python tuple comparison with code-point string
order. -/
def keyLE (a b : Nat × String) : Bool :=
  a.1 < b.1 || (a.1 = b.1 && (a.2 < b.2 || a.2 = b.2))

/-- Stable insertion sort by key, equivalent to Python's stable `list.sort`
with a key function. -/
def insertByKey {α : Type} (key : α → Nat × String) (x : α) :
    List α → List α
  | [] => [x]
  | y :: t => if keyLE (key x) (key y) then x :: y :: t
              else y :: insertByKey key x t

/-- Stable sort by key. -/
def sortByKey {α : Type} (key : α → Nat × String) (l : List α) : List α :=
  l.foldr (insertByKey key) []

/-- Fuel-bounded `while` loop of `assign_agent_colors` skipping palette
indices whose color is already used; the loop runs at most
`AGENT_COLORS.length` times. -/
def skipUsedF : Nat → List String → Nat → Nat
  | 0, _, idx => idx
  | fuel + 1, used, idx =>
    if idx < AGENT_COLORS.length ∧ AGENT_COLORS.getD idx "" ∈ used then
      skipUsedF fuel used (idx + 1)
    else idx

/-- Skip palette indices whose color is already used. -/
def skipUsed (used : List String) (idx : Nat) : Nat :=
  skipUsedF AGENT_COLORS.length used idx

/-- Well-known default colors for common agent names. -/
def KNOWN_COLORS : List (String × String) :=
  [("engineer", "#3b82f6"), ("designer", "#ec4899"), ("bizops", "#f59e0b"),
   ("qa", "#10b981"), ("researcher", "#06b6d4"),
   ("content strategist", "#8b5cf6"), ("content", "#8b5cf6")]

/-- Translation of `assign_agent_colors`: known names first, then palette
colors (cycling, collision-avoided) for the rest. -/
def assignAgentColors (agents : List Agent) : List (String × String) :=
  let first :=
    agents.foldl
      (fun (acc : List (String × String) × List String) a =>
        match mGetS KNOWN_COLORS (pyLower a.name) with
        | some c => (dictInsert acc.1 a.name c,
                     if c ∈ acc.2 then acc.2 else acc.2 ++ [c])
        | none => acc)
      ([], [])
  let second :=
    agents.foldl
      (fun (acc : List (String × String) × List String × Nat) a =>
        if (mGetS acc.1 a.name).isSome then acc
        else
          let i2 := skipUsed acc.2.1 acc.2.2
          let c := AGENT_COLORS.getD (i2 % AGENT_COLORS.length) ""
          (dictInsert acc.1 a.name c,
           (if c ∈ acc.2.1 then acc.2.1 else acc.2.1 ++ [c], i2 + 1)))
      (first.1, first.2, 0)
  second.1

/-- Phase assignment of `build_lifecycle_data`: a fixed 2-2-2-2 split for
eight steps, one phase per step up to four steps, else even distribution.
In the source the general branch computes `min(3, int(i / (n / 4)))` with
float division; `4 * i / n` is at distance at least `1 / n` from any integer
it is not equal to while the division's rounding error is far smaller, so
the float computation agrees with exact natural floor division. -/
def phaseAssignment (n : Nat) : List Nat :=
  if n = 8 then [0, 0, 1, 1, 2, 2, 3, 3]
  else if n ≤ 4 then List.range n
  else (List.range n).map fun i => min 3 (4 * i / n)

/-- Agent chip attached to a lifecycle step. -/
structure StepAgent where
  id : String
  name : String
  color : String
  role : MetaVal
deriving DecidableEq, Repr

/-- One rendered lifecycle step. -/
structure LStep where
  skill : String
  desc : MetaVal
  phase : Nat
  agents : List StepAgent
deriving DecidableEq, Repr

/-- Generic association-list read (Python dict lookup). -/
def aGet {α : Type} : List (String × α) → String → Option α
  | [], _ => none
  | (k, v) :: t, key => if key = k then some v else aGet t key

/-- Translation of `build_lifecycle_data`: steps with phase indices and
involved agents, plus the sprint alternate path. -/
def buildLifecycleData (lifecycle : List String) (agents : List Agent)
    (skills : List Skill) (alternatePaths : List AltPath)
    (colorMap : List (String × String)) : List LStep × Option AltPath :=
  let skillDesc : List (String × MetaVal) :=
    skills.foldl (fun m s => dictInsert m s.name s.description) []
  let agentByName : List (String × Agent) :=
    agents.foldl (fun m a => dictInsert m a.name a) []
  let agentSkillsMap : List (String × List String) :=
    agents.foldl
      (fun m a =>
        a.skills.foldl
          (fun m2 sk =>
            let cur := (aGet m2 sk).getD []
            dictInsert m2 sk
              (if a.name ∈ cur then cur else cur ++ [a.name]))
          m)
      []
  let pa := phaseAssignment lifecycle.length
  let steps := lifecycle.enum.map fun pr =>
    let phaseIdx := if pr.1 < pa.length then pa.getD pr.1 0 else 3
    let involved := (aGet agentSkillsMap pr.2).getD []
    let roles := involved.foldl
      (fun rs aname =>
        match aGet agentByName aname with
        | none => rs
        | some a =>
          rs ++ [{ id := spaceToDash (pyLower aname), name := aname,
                   color := (aGet colorMap aname).getD "#94a3b8",
                   role := a.description : StepAgent }])
      []
    { skill := pr.2, desc := (aGet skillDesc pr.2).getD (.str ""),
      phase := phaseIdx, agents := roles }
  (steps, alternatePaths.find? (fun ap => ap.name = "sprint"))

/-- Python `a or b` on frontmatter values: the first if truthy, else the
second. -/
def orV (a b : MetaVal) : MetaVal := if a.truthy then a else b

/-- JS-consumable agent record embedded as `AGENTS`. -/
structure AgentDatum where
  id : String
  name : String
  color : String
  model : MetaVal
  desc : MetaVal
  tools : List String
  skills : List String
  knowledge_skills : List String
  mcps : List String
  cli_tools : List String
  detail_description : MetaVal
deriving DecidableEq, Repr

/-- Utility card embedded as `VP_CARDS`. -/
structure VpCard where
  icon : String
  skill : String
  name : String
  desc : MetaVal
  agents : List String
deriving DecidableEq, Repr

/-- Team member chip embedded in `TEAMS`. -/
structure TeamMemberD where
  id : String
  name : String
  color : String
deriving DecidableEq, Repr

/-- Team record embedded as `TEAMS`. -/
structure TeamDatum where
  name : String
  purpose : String
  members : List TeamMemberD
deriving DecidableEq, Repr

/-- Detail-panel record embedded in `DETAIL_DATA`. -/
inductive Detail where
  | agent (name : String) (model : MetaVal) (desc : MetaVal)
      (tools : List String) (skills : List String) (color : String)
  | skill (name : String) (desc : MetaVal) (usedBy : List String)
      (phase : String)
  | team (name : String) (members : List String) (desc : String)
deriving DecidableEq, Repr

/-- The full data payload serialized into the generated page's script
block: the `AGENTS`, `LIFECYCLE`, `PHASES`, `VP_CARDS`, `TEAMS`,
`DETAIL_DATA`, `SPRINT` and `COLOR_MAP` constants. -/
structure Payload where
  agents : List AgentDatum
  lifecycle : List LStep
  phases : List PhaseDef
  vp : List VpCard
  teams : List TeamDatum
  detail : List (String × Detail)
  sprint : Option AltPath
  colorMap : List (String × String)
deriving DecidableEq, Repr

/-- One entry of the `AGENTS` payload list. -/
def mkAgentDatum (colorMap : List (String × String)) (a : Agent) : AgentDatum :=
  { id := spaceToDash (pyLower a.name)
    name := a.name
    color := (aGet colorMap a.name).getD "#94a3b8"
    model := orV a.model (.str "inherit")
    desc := a.description
    tools := a.mcps ++ a.cli_tools.map (fun ct => ct ++ " CLI")
    skills := a.skills
    knowledge_skills := a.knowledge_skills
    mcps := a.mcps
    cli_tools := a.cli_tools
    detail_description := orV a.detail_description a.description }

/-- The fixed "Decision memory" card always heading `VP_CARDS`. -/
def vpHead : VpCard :=
  { icon := (mGetS VP_ICONS "observer").getD "🧠"
    skill := "observer"
    name := "Decision memory"
    desc := .str "Every choice you make is logged with your reasoning. Not what changed (git handles that) — but WHY you chose it."
    agents := ["orchestrator"] }

/-- Card for one utility skill. -/
def mkVpFromUtil (us : UtilSkill) : VpCard :=
  let agentIds := us.agents.map fun an => spaceToDash (pyLower an)
  { icon := (mGetS VP_ICONS us.name).getD "⚙️"
    skill := us.name
    name := "/" ++ us.name
    desc := orV us.description (.str ((mGetS VP_DEFAULTS us.name).getD ""))
    agents := if agentIds = [] then ["orchestrator"] else agentIds }

/-- Card for one alternate path (fallback branch for non-plugin configs). -/
def mkVpFromAlt (ap : AltPath) : VpCard :=
  { icon := (mGetS VP_ICONS ap.name).getD "⚙️"
    skill := ap.name
    name := "/" ++ ap.name
    desc := orV (.str ap.description) (.str ((mGetS VP_DEFAULTS ap.name).getD ""))
    agents := ["orchestrator"] }

/-- Card for a well-known utility skill found in the skill list. -/
def mkVpFromSkill (skills : List Skill) (skName : String) : VpCard :=
  { icon := (mGetS VP_ICONS skName).getD "⚙️"
    skill := skName
    name := "/" ++ skName
    desc := match skills.find? (fun s => s.name = skName) with
      | some sk => sk.description
      | none => .str ((mGetS VP_DEFAULTS skName).getD "")
    agents := ["orchestrator"] }

/-- Unsorted `VP_CARDS` payload list. -/
def mkVpCards (config : Config) : List VpCard :=
  if config.utility_skills ≠ [] then
    [vpHead] ++ config.utility_skills.foldl
      (fun acc us => if us.name = "kickoff" then acc else acc ++ [mkVpFromUtil us])
      []
  else
    let fromAlt :=
      [vpHead] ++ config.alternate_paths.foldl
        (fun acc ap =>
          if ap.name = "sprint" ∨ ap.name = "kickoff" then acc
          else acc ++ [mkVpFromAlt ap])
        []
    let skillNamesSet := config.skills.map (·.name)
    ["story", "scaffold", "help"].foldl
      (fun acc skName =>
        if skName ∈ skillNamesSet ∧ ¬ acc.any (fun v => v.skill = skName) then
          acc ++ [mkVpFromSkill config.skills skName]
        else acc)
      fromAlt

/-- One entry of the `TEAMS` payload list. -/
def mkTeamDatum (colorMap : List (String × String)) (tm : Team) : TeamDatum :=
  { name := tm.name
    purpose := tm.description
    members := tm.members.map fun mname =>
      { id := spaceToDash (pyLower mname), name := mname,
        color := (aGet colorMap mname).getD "#94a3b8" } }

/-- The `DETAIL_DATA` payload dict. -/
def mkDetailData (config : Config) (colorMap : List (String × String))
    (lifecycleSteps : List LStep) : List (String × Detail) :=
  let agents := config.agents
  let detail0 : List (String × Detail) :=
    agents.foldl
      (fun dd a =>
        dictInsert dd ("agent-" ++ spaceToDash (pyLower a.name))
          (.agent a.name (orV a.model (.str "inherit"))
            (orV a.detail_description a.description)
            (a.mcps ++ a.cli_tools.map (fun t => t ++ " (CLI)"))
            a.skills ((aGet colorMap a.name).getD "#94a3b8")))
      []
  let detail1 :=
    config.skills.foldl
      (fun dd sk =>
        let usedBy := (agents.filter (fun a => sk.name ∈ a.skills)).map (·.name)
        let phaseName :=
          match lifecycleSteps.find? (fun st => st.skill = sk.name) with
          | some st =>
            if st.phase < PHASE_DEFS.length then
              ((PHASE_DEFS.get? st.phase).map (·.label)).getD ""
            else ""
          | none => ""
        dictInsert dd ("skill-" ++ sk.name)
          (.skill ("/" ++ sk.name) (orV sk.detail_description sk.description)
            usedBy phaseName))
      detail0
  config.teams.enum.foldl
    (fun dd pr =>
      dictInsert dd ("team-" ++ toString pr.1)
        (.team pr.2.name pr.2.members pr.2.description))
    detail1

/-- Data assembly of `generate_html` (the part of the renderer preceding
string templating): computes every structure embedded in the page.  The
`marketing` flag only changes surrounding markup, not the payload. -/
def generateHtmlData (config : Config) : Payload :=
  let colorMap := assignAgentColors config.agents
  let built :=
    buildLifecycleData config.lifecycle config.agents config.skills
      config.alternate_paths colorMap
  { agents := sortByKey (fun a => orderKey PREFERRED_AGENT_ORDER (dashToSpace a.id))
      (config.agents.map (mkAgentDatum colorMap))
    lifecycle := built.1
    phases := PHASE_DEFS
    vp := sortByKey (fun v => orderKey PREFERRED_VP_ORDER v.skill)
      (mkVpCards config)
    teams := config.teams.map (mkTeamDatum colorMap)
    detail := mkDetailData config colorMap built.1
    sprint := built.2
    colorMap := colorMap }

/-- The rewrite of `safe_json`: Python `s.replace('</', '<\\/')`, replacing
each non-overlapping occurrence left to right. -/
def replSafe : List Char → List Char
  | [] => []
  | [c] => [c]
  | c :: c2 :: t =>
    if c = '<' ∧ c2 = '/' then '<' :: '\\' :: '/' :: replSafe t
    else c :: replSafe (c2 :: t)

/-- Script-safety escape applied by `safe_json` to every serialized JSON
payload string. -/
def safeJsonEscape (s : String) : String := String.mk (replSafe s.data)

/-- Detector for an occurrence of the substring `</`. -/
def hasLtSlash : List Char → Bool
  | [] => false
  | [_] => false
  | c :: c2 :: t => (c = '<' && c2 = '/') || hasLtSlash (c2 :: t)

/-! ### Basic lemmas about the string primitives -/

theorem data_mk (l : List Char) : (String.mk l).data = l := rfl

theorem mk_data (s : String) : String.mk s.data = s := rfl

theorem length_mk (l : List Char) : (String.mk l).length = l.length := rfl

theorem length_data (s : String) : s.length = s.data.length := rfl

theorem data_append (a b : String) : (a ++ b).data = a.data ++ b.data := rfl

theorem length_append (a b : String) : (a ++ b).length = a.length + b.length := by
  simp only [length_data, data_append, List.length_append]

theorem mGetS_mem {l : List (String × String)} {k v : String}
    (h : mGetS l k = some v) : (k, v) ∈ l := by
  induction l with
  | nil => simp [mGetS] at h
  | cons p t ih =>
    obtain ⟨k0, v0⟩ := p
    by_cases hk : k = k0
    · subst hk
      simp [mGetS] at h
      simp [h]
    · simp [mGetS, hk] at h
      exact List.mem_cons_of_mem _ (ih h)

theorem abbrev_entries :
    ∀ p ∈ ABBREV, p.1.length = p.2.length ∧ ' ' ∉ p.1.data := by decide

theorem pyLower_length (s : String) : (pyLower s).length = s.length := by
  simp only [pyLower, length_mk, List.length_map, length_data]

theorem fixWord_length (w : String) : (fixWord w).length = w.length := by
  unfold fixWord
  cases h : mGetS ABBREV (pyLower w) with
  | none => rfl
  | some v =>
    have h2 := (abbrev_entries _ (mGetS_mem h)).1
    simpa [pyLower_length] using h2.symm

theorem joinSp_length :
    ∀ ws : List String, ws ≠ [] →
      (joinSp ws).length = (ws.map String.length).sum + (ws.length - 1) := by
  intro ws
  induction ws with
  | nil => intro h; contradiction
  | cons w rest ih =>
    intro _
    cases rest with
    | nil => simp [joinSp]
    | cons w2 r2 =>
      have h2 := ih (by simp)
      simp only [joinSp, length_append, h2, List.map_cons, List.sum_cons,
        List.length_cons]
      have : ("" ++ " ").length = 1 := by decide
      simp [length_append] at this ⊢
      omega

theorem pySplitChars_measure :
    ∀ n (l : List Char), l.length ≤ n →
      ((pySplitChars l).map List.length).sum + (pySplitChars l).length
        ≤ l.length + 1 := by
  intro n
  induction n with
  | zero =>
    intro l hl
    have : l = [] := List.length_eq_zero.mp (Nat.le_zero.mp hl)
    subst this
    simp [pySplitChars]
  | succ n ih =>
    intro l hl
    cases l with
    | nil => simp [pySplitChars]
    | cons c t =>
      by_cases hs : isSpace c
      · have hb := ih t (by simp at hl; omega)
        simp only [pySplitChars, hs, if_true, List.length_cons]
        omega
      · cases t with
        | nil => simp [pySplitChars, hs]
        | cons c2 rest =>
          by_cases hs2 : isSpace c2
          · have e : pySplitChars (c2 :: rest) = pySplitChars rest := by
              simp [pySplitChars, hs2]
            have hb := ih rest (by simp at hl ⊢; omega)
            simp only [pySplitChars, hs, if_false, hs2, if_true, e,
              Bool.false_eq_true, List.map_cons, List.sum_cons,
              List.length_cons, List.length_nil]
            simp at hl
            omega
          · have hb := ih (c2 :: rest) (by simp at hl ⊢; omega)
            have e3 : pySplitChars (c :: c2 :: rest)
                = match pySplitChars (c2 :: rest) with
                  | w :: ws => (c :: w) :: ws
                  | [] => [[c]] := by
              simp [pySplitChars, hs, hs2]
            cases hr : pySplitChars (c2 :: rest) with
            | nil =>
              rw [hr] at e3
              simp only [e3, List.map_cons, List.sum_cons, List.length_cons,
                List.map_nil, List.sum_nil, List.length_nil]
              omega
            | cons w ws =>
              rw [hr] at e3 hb
              simp only [e3, List.map_cons, List.sum_cons,
                List.length_cons] at hb ⊢
              omega

theorem fixNameCasing_length_le (s : String) :
    (fixNameCasing s).length ≤ s.length := by
  unfold fixNameCasing
  cases h : mGetS ABBREV (pyLower s) with
  | some v =>
    have h2 := (abbrev_entries _ (mGetS_mem h)).1
    simp only []
    rw [← pyLower_length s, h2]
  | none =>
    simp only []
    by_cases hz : pySplit s = []
    · simp [hz, joinSp]
    · have hne : (pySplit s).map fixWord ≠ [] := by
        simpa using hz
      rw [joinSp_length _ hne]
      have hmap : ((pySplit s).map fixWord).map String.length
          = (pySplit s).map String.length := by
        rw [List.map_map]
        exact List.map_congr_left (fun w _ => fixWord_length w)
      have hlen : (pySplit s).map String.length
          = (pySplitChars s.data).map List.length := by
        simp [pySplit, List.map_map]
      have hm := pySplitChars_measure s.data.length s.data (Nat.le_refl _)
      have hc2 : ((pySplit s).map fixWord).length
          = (pySplitChars s.data).length := by
        simp [pySplit]
      have hcnt : 1 ≤ (pySplitChars s.data).length := by
        have : pySplitChars s.data ≠ [] := by
          intro hnil
          exact hz (by simp [pySplit, hnil])
        exact List.length_pos.mpr this
      rw [hmap, hlen, hc2, length_data]
      omega

/-! ### C10: `fix_name_casing` never lengthens its input -/

/-- C10: for every string `s`, `fix_name_casing(s)` is at most as long as
`s`: table replacements swap words for same-length canonical forms and the
split-and-rejoin can only collapse whitespace. -/
theorem c10_fix_name_casing_nonexpanding (s : String) :
    (fixNameCasing s).length ≤ s.length :=
  fixNameCasing_length_le s

/-! ### C5: `fix_name_casing` word replacement -/

theorem pySplitChars_word :
    ∀ w : List Char, w ≠ [] → (∀ c ∈ w, isSpace c = false) →
      pySplitChars w = [w] := by
  intro w
  induction w with
  | nil => intro h; contradiction
  | cons c w' ih =>
    intro _ hw
    have hc : isSpace c = false := hw c (List.mem_cons_self ..)
    cases w' with
    | nil => simp [pySplitChars, hc]
    | cons c2 w'' =>
      have hc2 : isSpace c2 = false := hw c2 (by simp)
      have ihh := ih (by simp) (fun x hx => hw x (List.mem_cons_of_mem _ hx))
      rw [pySplitChars.eq_def]
      simp [hc, hc2, ihh]

theorem pySplitChars_word_append :
    ∀ (w rest : List Char), w ≠ [] → (∀ c ∈ w, isSpace c = false) →
      pySplitChars (w ++ ' ' :: rest) = w :: pySplitChars rest := by
  intro w
  induction w with
  | nil => intro rest h; contradiction
  | cons c w' ih =>
    intro rest _ hw
    have hc : isSpace c = false := hw c (List.mem_cons_self ..)
    cases w' with
    | nil =>
      have hsp : isSpace ' ' = true := by decide
      simp [pySplitChars, hc, hsp]
    | cons c2 w'' =>
      have hc2 : isSpace c2 = false := hw c2 (by simp)
      have ihh := ih rest (by simp) (fun x hx => hw x (List.mem_cons_of_mem _ hx))
      simp only [List.cons_append] at ihh ⊢
      rw [pySplitChars.eq_def]
      simp [hc, hc2, ihh]

theorem pySplit_joinSp :
    ∀ ws : List String,
      (∀ w ∈ ws, w ≠ "" ∧ ∀ c ∈ w.data, isSpace c = false) →
      pySplit (joinSp ws) = ws := by
  intro ws
  induction ws with
  | nil => intro _; simp [joinSp, pySplit, pySplitChars]
  | cons w rest ih =>
    intro hws
    have hw := hws w (List.mem_cons_self ..)
    have hdne : w.data ≠ [] := by
      intro hnil
      exact hw.1 (by rw [← mk_data w, hnil])
    cases rest with
    | nil =>
      simp only [joinSp, pySplit]
      rw [pySplitChars_word w.data hdne hw.2]
      simp [mk_data]
    | cons w2 r2 =>
      have e : joinSp (w :: w2 :: r2) = w ++ " " ++ joinSp (w2 :: r2) := rfl
      have edata : (joinSp (w :: w2 :: r2)).data
          = w.data ++ ' ' :: (joinSp (w2 :: r2)).data := by
        rw [e, data_append, data_append]
        simp
      have ihh := ih (fun x hx => hws x (List.mem_cons_of_mem _ hx))
      simp only [pySplit] at ihh ⊢
      rw [edata, pySplitChars_word_append w.data _ hdne hw.2]
      simp only [List.map_cons, mk_data]
      rw [ihh]

/-- C5 counterexample: `fix_name_casing("ui ux designer")` leaves the
non-abbreviation word `designer` exactly as received, returning
`"UI UX designer"`, not the title-cased `"UI UX Designer"` the claim
states. -/
theorem c5_counterexample :
    fixNameCasing "ui ux designer" = "UI UX designer" ∧
      ("UI UX designer" : String) ≠ "UI UX Designer" := by decide

/-- C5 (amended): `fix_name_casing("github") = "GitHub"`;
`fix_name_casing("ui ux designer") = "UI UX designer"` (words outside the
abbreviation table are left as received, not title-cased); and per-word
abbreviation replacement applies to each word independently of its
position: on any whitespace-joined word list of length at least two the
function rewrites each word through the table separately. -/
theorem c5_fix_name_casing_per_word :
    fixNameCasing "github" = "GitHub" ∧
    fixNameCasing "ui ux designer" = "UI UX designer" ∧
    ∀ ws : List String, 2 ≤ ws.length →
      (∀ w ∈ ws, w ≠ "" ∧ ∀ c ∈ w.data, isSpace c = false) →
      fixNameCasing (joinSp ws) = joinSp (ws.map fixWord) := by
  refine ⟨by decide, by decide, ?_⟩
  intro ws h2 hws
  obtain ⟨w1, w2, rest, rfl⟩ : ∃ a b r, ws = a :: b :: r := by
    cases ws with
    | nil => simp at h2
    | cons a t =>
      cases t with
      | nil => simp at h2
      | cons b r => exact ⟨a, b, r, rfl⟩
  unfold fixNameCasing
  cases h : mGetS ABBREV (pyLower (joinSp (w1 :: w2 :: rest))) with
  | some v =>
    exfalso
    have hsp : ' ' ∈ (joinSp (w1 :: w2 :: rest)).data := by
      have e : joinSp (w1 :: w2 :: rest) = w1 ++ " " ++ joinSp (w2 :: rest) := rfl
      rw [e, data_append, data_append]
      apply List.mem_append.mpr
      left
      apply List.mem_append.mpr
      right
      decide
    have hmem : ' ' ∈ (pyLower (joinSp (w1 :: w2 :: rest))).data := by
      unfold pyLower
      rw [data_mk]
      exact List.mem_map.mpr ⟨' ', hsp, by decide⟩
    exact (abbrev_entries _ (mGetS_mem h)).2 hmem
  | none =>
    simp only []
    rw [pySplit_joinSp _ hws]

/-- C5 witness: the per-word replacement applied to a concrete two-word
list. -/
theorem c5_witness :
    fixNameCasing (joinSp ["qa", "lead"]) = joinSp (["qa", "lead"].map fixWord) :=
  c5_fix_name_casing_per_word.2.2 ["qa", "lead"] (by decide) (by decide)

/-! ### C6: the length bound of `shorten_description` -/

/-- C6 counterexample: at `max_len = 2` the truncation branch uses the
Python slice `first[:max_len - 3]` with a negative bound, so
`shorten_description("abcdef", 2)` is `"abcde..."`, of length 8 > 2, even
though `"abcdef"` matches neither pattern. -/
theorem c6_counterexample :
    specTarget "abcdef" = none ∧ forTarget "abcdef" = none ∧
      ¬ (shortenDescription "abcdef" 2).length ≤ 2 := by decide

theorem sdFallback_length_le (desc : String) (maxLen : Nat)
    (h3 : 3 ≤ maxLen) : (sdFallback desc maxLen).length ≤ maxLen := by
  unfold sdFallback
  simp only []
  set first := String.mk ((splitOnChar '.' desc.data).headD []) with hfirst
  set clause := String.mk ((splitOnChar ',' first.data).headD []) with hclause
  by_cases h1 : clause.length ≤ maxLen
  · rw [if_pos h1]
    exact le_trans (fixNameCasing_length_le _) h1
  · rw [if_neg h1]
    by_cases h2 : first.length ≤ maxLen
    · rw [if_pos h2]
      exact le_trans (fixNameCasing_length_le _) h2
    · rw [if_neg h2]
      refine le_trans (fixNameCasing_length_le _) ?_
      rw [length_append]
      have hdot : ("..." : String).length = 3 := by decide
      rw [hdot]
      have hnn : ¬ ((maxLen : Int) - 3 < 0) := by omega
      have htn : ((maxLen : Int) - 3).toNat = maxLen - 3 := by omega
      simp only [pySliceTo, hnn, if_neg, if_false, length_mk]
      rw [htn, List.length_take]
      omega

/-- C6 (amended): for every string that matches neither the
`specializing in` pattern nor the `for`/`covering` pattern (with a
non-article target), and every `max_len ≥ 3`, `shorten_description`
returns a string of length at most `max_len`.  The bound fails for
`max_len < 3` (see the counterexample) because the truncation slice
`first[:max_len - 3]` becomes a negative Python slice. -/
theorem c6_shorten_description_bound (s : String) (maxLen : Nat)
    (h3 : 3 ≤ maxLen) (hs : specTarget s = none)
    (hf : ∀ t, forTarget s = some t → startsArticle (pyStrip t) = true) :
    (shortenDescription s maxLen).length ≤ maxLen := by
  unfold shortenDescription
  by_cases h0 : s = "" ∨ s.length ≤ maxLen
  · rw [if_pos h0]
    rcases h0 with h0 | h0
    · subst h0; simp [length_data]
    · exact h0
  · rw [if_neg h0, hs]
    simp only []
    cases hft : forTarget s with
    | none => exact sdFallback_length_le s maxLen h3
    | some t =>
      have ha := hf t hft
      show (if ¬ startsArticle (pyStrip t) = true then joinParts (pyStrip t)
            else sdFallback s maxLen).length ≤ maxLen
      rw [ha, if_neg (by simp)]
      exact sdFallback_length_le s maxLen h3

/-- C6 witness: the amended bound applied at a concrete pattern-free
string and budget. -/
theorem c6_witness :
    (shortenDescription "Llongwordnocommaorperiodxyzxyzxyzxyzxyzxyzxyzxyzxy" 10).length
      ≤ 10 :=
  c6_shorten_description_bound _ 10 (by decide) (by decide)
    (by
      intro t ht
      have hn : forTarget "Llongwordnocommaorperiodxyzxyzxyzxyzxyzxyzxyzxyzxy" = none := by
        decide
      rw [hn] at ht
      cases ht)

/-! ### C9: `safe_json` leaves no `</` in its output -/

theorem replSafe_head (c : Char) (t : List Char) :
    (replSafe (c :: t)).head? = some c := by
  cases t with
  | nil => simp [replSafe]
  | cons c2 t2 =>
    by_cases h : c = '<' ∧ c2 = '/'
    · obtain ⟨h1, h2⟩ := h
      subst h1; subst h2
      simp [replSafe]
    · simp [replSafe, h]

theorem hasLtSlash_replSafe : ∀ l : List Char, hasLtSlash (replSafe l) = false := by
  intro l
  induction l using replSafe.induct with
  | case1 => simp [replSafe, hasLtSlash]
  | case2 c => simp [replSafe, hasLtSlash]
  | case3 c c2 t h ih =>
    obtain ⟨h1, h2⟩ := h
    subst h1; subst h2
    have e : replSafe ('<' :: '/' :: t) = '<' :: '\\' :: '/' :: replSafe t := by
      simp [replSafe]
    rw [e]
    cases hrt : replSafe t with
    | nil => decide
    | cons x xs =>
      rw [hrt] at ih
      simp [hasLtSlash, ih]
  | case4 c c2 t h ih =>
    have e : replSafe (c :: c2 :: t) = c :: replSafe (c2 :: t) := by
      simp [replSafe, h]
    rw [e]
    cases hrr : replSafe (c2 :: t) with
    | nil => simp [hasLtSlash]
    | cons y ys =>
      have hy : y = c2 := by
        have hh := replSafe_head c2 t
        rw [hrr] at hh
        simpa using hh
      rw [hrr] at ih
      have hcc : ¬ (c = '<' ∧ y = '/') := by rw [hy]; exact h
      simp only [hasLtSlash, ih, Bool.or_false]
      by_cases hc : c = '<'
      · have hy2 : ¬ y = '/' := fun he => hcc ⟨hc, he⟩
        simp [hy2]
      · simp [hc]

theorem hasLtSlash_of_split :
    ∀ pre post : List Char, hasLtSlash (pre ++ '<' :: '/' :: post) = true := by
  intro pre
  induction pre with
  | nil => intro post; simp [hasLtSlash]
  | cons c pre' ih =>
    intro post
    cases pre' with
    | nil =>
      simp only [List.nil_append] at ih
      simp [hasLtSlash, ih post]
    | cons d pre'' =>
      simp only [List.cons_append] at ih ⊢
      simp [hasLtSlash, ih post]

/-- C9: for every serialized payload string, the `safe_json` rewrite of
`</` to `<\/` leaves no occurrence of the substring `</`, so embedded data
cannot terminate the generated script block early. -/
theorem c9_safe_json_no_script_end (s : String) :
    ¬ List.IsInfix ['<', '/'] (safeJsonEscape s).data := by
  intro hinf
  obtain ⟨pre, post, heq⟩ := hinf
  have h1 : hasLtSlash (pre ++ '<' :: '/' :: post) = true :=
    hasLtSlash_of_split pre post
  have h2 : pre ++ '<' :: '/' :: post = (safeJsonEscape s).data := by
    simpa using heq
  rw [h2] at h1
  have h3 : hasLtSlash (safeJsonEscape s).data = false :=
    hasLtSlash_replSafe s.data
  rw [h1] at h3
  cases h3

/-! ### C2: `parse_frontmatter` on input with no frontmatter block -/

theorem wsNlSplits_sound {l w r : List Char} (h : (w, r) ∈ wsNlSplits l) :
    l = w ++ '\n' :: r ∧ w.all isSpace = true := by
  unfold wsNlSplits at h
  rw [List.mem_filterMap] at h
  obtain ⟨k, _, hcond⟩ := h
  split at hcond
  case isTrue hc =>
    obtain ⟨hall, hget⟩ := hc
    have hw : l.take k = w := congrArg Prod.fst (Option.some.inj hcond)
    have hr : l.drop (k + 1) = r := congrArg Prod.snd (Option.some.inj hcond)
    have hlt : k < l.length := by
      by_contra hge
      rw [List.get?_eq_none.mpr (Nat.le_of_not_lt hge)] at hget
      cases hget
    have hval : l[k] = '\n' := by
      have := List.get?_eq_get (l := l) (n := k) hlt
      rw [this] at hget
      exact Option.some.inj hget
    refine ⟨?_, by rw [← hw]; exact hall⟩
    rw [← hw, ← hr]
    conv_lhs => rw [← List.take_append_drop k l]
    congr 1
    rw [← List.getElem_cons_drop l k hlt, hval]
  case isFalse => cases hcond

theorem fmSplit_sound {s m b : List Char} (h : fmSplit s = some (m, b)) :
    HasFM s := by
  unfold fmSplit at h
  split at h
  case isFalse => cases h
  case isTrue h3 =>
    obtain ⟨pr, hprmem, h2⟩ := List.exists_of_findSome?_eq_some h
    obtain ⟨w0, r0⟩ := pr
    obtain ⟨hdec, hws⟩ := wsNlSplits_sound hprmem
    obtain ⟨i, _, h4⟩ := List.exists_of_findSome?_eq_some h2
    split at h4
    case isFalse => cases h4
    case isTrue h5 =>
      cases hh : (wsNlSplits ((r0.drop i).drop 4)).head? with
      | none => rw [hh] at h4; cases h4
      | some pr2 =>
        obtain ⟨w2, b2⟩ := pr2
        obtain ⟨hdec2, hws2⟩ :=
          wsNlSplits_sound (List.mem_of_mem_head? (by rw [hh]; rfl))
        have e2 : r0.drop i = '\n' :: '-' :: '-' :: '-' :: (w2 ++ '\n' :: b2) := by
          conv_lhs => rw [← List.take_append_drop 4 (r0.drop i)]
          rw [h5, hdec2]
          rfl
        have e0 : s = ['-', '-', '-'] ++ (w0 ++ '\n' :: r0) := by
          conv_lhs => rw [← List.take_append_drop 3 s]
          rw [h3, hdec]
        refine ⟨w0, r0.take i, w2, b2, ?_, hws, hws2⟩
        rw [e0]
        conv_lhs => rw [← List.take_append_drop i r0, e2]
        simp [List.append_assoc]

/-- C2: `parse_frontmatter` is total by construction (it is a plain
function into pairs), and on any input that admits no three-hyphen
frontmatter decomposition it returns the empty mapping together with the
original text unchanged as the body. -/
theorem c2_parse_frontmatter_no_block (s : String) (h : ¬ HasFM s.data) :
    parseFrontmatter s = ([], s) := by
  unfold parseFrontmatter
  cases hf : fmSplit s.data with
  | none => rfl
  | some pr =>
    obtain ⟨m, b⟩ := pr
    exact absurd (fmSplit_sound hf) h

theorem hasFM_take3 {l : List Char} (h : HasFM l) :
    l.take 3 = ['-', '-', '-'] := by
  obtain ⟨w, a, w2, b, heq, -, -⟩ := h
  subst heq
  rfl

/-- C2 witness: a plain text document has no frontmatter block and passes
through unchanged. -/
theorem c2_witness :
    ¬ HasFM "just a plain readme".data ∧
      parseFrontmatter "just a plain readme" = ([], "just a plain readme") := by
  have hn : ¬ HasFM "just a plain readme".data := by
    intro h
    exact absurd (hasFM_take3 h) (by decide)
  exact ⟨hn, c2_parse_frontmatter_no_block _ hn⟩

/-! ### C8: when `parse_frontmatter` flushes a bullet list -/

theorem pyStripL_length_le_dropWhile (l : List Char) :
    (pyStripL l).length ≤ (l.dropWhile isSpace).length := by
  unfold pyStripL
  rw [List.length_reverse]
  calc ((l.dropWhile isSpace).reverse.dropWhile isSpace).length
      ≤ (l.dropWhile isSpace).reverse.length := dropWhile_length_le ..
    _ = (l.dropWhile isSpace).length := List.length_reverse ..

theorem strip_head_not_space {a : String} (h : pyStrip a = a) {c : Char}
    {t : List Char} (hd : a.data = c :: t) : isSpace c = false := by
  by_contra hcs
  have hcs' : isSpace c = true := by
    cases hb : isSpace c with
    | false => exact absurd hb hcs
    | true => rfl
  have hlen : (pyStrip a).length = a.length := by rw [h]
  have hle : (pyStrip a).length ≤ t.length := by
    calc (pyStrip a).length = (pyStripL a.data).length := rfl
      _ ≤ (a.data.dropWhile isSpace).length := pyStripL_length_le_dropWhile _
      _ = (t.dropWhile isSpace).length := by rw [hd]; simp [List.dropWhile, hcs']
      _ ≤ t.length := dropWhile_length_le ..
  rw [hlen, length_data, hd] at hle
  simp only [List.length_cons] at hle
  omega

theorem takeWhile_append_all {p : Char → Bool} {l1 : List Char} (l2 : List Char)
    (h : ∀ c ∈ l1, p c = true) :
    (l1 ++ l2).takeWhile p = l1 ++ l2.takeWhile p := by
  induction l1 with
  | nil => simp
  | cons c t ih =>
    have hc := h c (List.mem_cons_self ..)
    simp only [List.cons_append, List.takeWhile_cons, hc, if_true]
    rw [ih (fun x hx => h x (List.mem_cons_of_mem _ hx))]

theorem dropWhile_append_all {p : Char → Bool} {l1 : List Char} (l2 : List Char)
    (h : ∀ c ∈ l1, p c = true) :
    (l1 ++ l2).dropWhile p = l2.dropWhile p := by
  induction l1 with
  | nil => simp
  | cons c t ih =>
    have hc := h c (List.mem_cons_self ..)
    simp only [List.cons_append, List.dropWhile_cons, hc, if_true]
    exact ih (fun x hx => h x (List.mem_cons_of_mem _ hx))

/-- The group of the bullet regex on a well-formed item line. -/
theorem bulletContent_item (a : String) (ha : a ≠ "") (hstrip : pyStrip a = a) :
    bulletContent ("  - " ++ a).data = some a := by
  have hdne : a.data ≠ [] := fun hnil => ha (by rw [← mk_data a, hnil])
  obtain ⟨c, t, hd⟩ : ∃ c t, a.data = c :: t := by
    cases hda : a.data with
    | nil => exact absurd hda hdne
    | cons c t => exact ⟨c, t, rfl⟩
  have hc := strip_head_not_space hstrip hd
  have hdata : ("  - " ++ a).data = ' ' :: ' ' :: '-' :: ' ' :: a.data := by
    rw [data_append]; rfl
  have hsp : isSpace ' ' = true := by decide
  have hdash : isSpace '-' = false := by decide
  unfold bulletContent
  rw [hdata, hd]
  have e1 : (' ' :: ' ' :: '-' :: ' ' :: c :: t).takeWhile isSpace = [' ', ' '] := by
    simp [List.takeWhile, hsp, hdash]
  rw [e1]
  rw [if_neg (by decide)]
  simp only [List.length_cons, List.length_nil, List.drop_succ_cons,
    List.drop_zero]
  have hall : (' ' :: c :: t).all isSpace = false := by
    simp [List.all_cons, hc]
  rw [hall]
  simp only [Bool.false_eq_true, if_false]
  have e2 : (' ' :: c :: t).takeWhile isSpace = [' '] := by
    simp [List.takeWhile, hsp, hc]
  rw [e2]
  rw [if_neg (by decide)]
  simp only [List.length_cons, List.length_nil, List.drop_succ_cons,
    List.drop_zero]
  rw [← hd, mk_data, hstrip]

/-- Processing a `key:` line from a state with no pending list. -/
theorem metaStep_keyline (mt : Meta) (ck : Option String) (k : String)
    (hk1 : k ≠ "") (hk2 : pyStrip k = k) (hk3 : ':' ∉ k.data) :
    metaStep ⟨mt, ck, none⟩ (k ++ ":") = ⟨mt, some k, none⟩ := by
  have hdne : k.data ≠ [] := fun hnil => hk1 (by rw [← mk_data k, hnil])
  obtain ⟨c, t, hd⟩ : ∃ c t, k.data = c :: t := by
    cases hda : k.data with
    | nil => exact absurd hda hdne
    | cons c t => exact ⟨c, t, rfl⟩
  have hc := strip_head_not_space hk2 hd
  have hdata : (k ++ ":").data = k.data ++ [':'] := by rw [data_append]
  have hkall : ∀ x ∈ k.data, (fun c => decide (c ≠ ':')) x = true := by
    intro x hx
    simp only [decide_eq_true_eq]
    exact fun he => hk3 (he ▸ hx)
  have hbul : bulletContent (k ++ ":").data = none := by
    unfold bulletContent
    rw [hdata, hd]
    have e : ((c :: t) ++ [':']).takeWhile isSpace = [] := by
      simp only [List.cons_append, List.takeWhile]
      rw [hc]
    simp only [List.cons_append] at e ⊢
    rw [e]
    simp
  unfold metaStep
  rw [hbul]
  unfold metaStep.keyPhase
  simp only [Option.isSome_none, Bool.false_eq_true, false_and, if_false]
  have hcolon : ':' ∈ (k ++ ":").data := by
    rw [hdata]
    exact List.mem_append.mpr (Or.inr (by decide))
  have hhead : (k ++ ":").data.head? ≠ some ' ' := by
    rw [hdata, hd]
    simp only [List.cons_append, List.head?_cons, ne_eq, Option.some.injEq]
    intro hce
    rw [hce] at hc
    exact absurd hc (by decide)
  rw [if_pos ⟨hcolon, hhead⟩]
  have htw : ((k ++ ":").data).takeWhile (fun c => c ≠ ':') = k.data := by
    rw [hdata, takeWhile_append_all [':'] hkall]
    simp [List.takeWhile]
  have hdw : ((k ++ ":").data).dropWhile (fun c => c ≠ ':') = [':'] := by
    rw [hdata, dropWhile_append_all [':'] hkall]
    simp [List.dropWhile]
  unfold splitFirstColon
  rw [htw, hdw]
  simp only [List.drop_succ_cons, List.drop_zero, mk_data, hk2]
  rw [if_neg (by simp [pyStrip, pyStripL])]

/-- Processing a bullet line with a truthy current key appends the item to
the pending list. -/
theorem metaStep_bullet (mt : Meta) (k : String) (cl : Option (List String))
    (a : String) (hk1 : k ≠ "") (ha : a ≠ "") (hstrip : pyStrip a = a) :
    metaStep ⟨mt, some k, cl⟩ ("  - " ++ a)
      = ⟨mt, some k, some (cl.getD [] ++ [a])⟩ := by
  have hck : ckTruthy (some k) = true := by simp [ckTruthy, hk1]
  unfold metaStep
  rw [bulletContent_item a ha hstrip]
  simp [hck]

/-- A blank line with no pending list leaves the state unchanged. -/
theorem metaStep_blank_none (mt : Meta) (k : String) (hk1 : k ≠ "") :
    metaStep ⟨mt, some k, none⟩ "" = ⟨mt, some k, none⟩ := by
  have hbul : bulletContent "".data = none := by decide
  unfold metaStep
  rw [hbul]
  unfold metaStep.keyPhase
  simp [ckTruthy]

/-- A blank line flushes a pending list under a truthy key. -/
theorem metaStep_blank_some (mt : Meta) (k : String) (l : List String)
    (hk1 : k ≠ "") :
    metaStep ⟨mt, some k, some l⟩ ""
      = ⟨dictInsert mt k (.list l), some k, none⟩ := by
  have hbul : bulletContent "".data = none := by decide
  have hck : ckTruthy (some k) = true := by simp [ckTruthy, hk1]
  unfold metaStep
  rw [hbul]
  unfold metaStep.keyPhase
  simp [hck, Option.isSome]

theorem foldl_bullets (as : List String) (mt : Meta) (k : String)
    (acc : List String) (hk1 : k ≠ "")
    (has : ∀ a ∈ as, a ≠ "" ∧ pyStrip a = a) :
    (as.map (fun a => "  - " ++ a)).foldl metaStep ⟨mt, some k, some acc⟩
      = ⟨mt, some k, some (acc ++ as)⟩ := by
  induction as generalizing acc with
  | nil => simp
  | cons a as' ih =>
    have ha := has a (List.mem_cons_self ..)
    simp only [List.map_cons, List.foldl_cons]
    rw [metaStep_bullet mt k (some acc) a hk1 ha.1 ha.2]
    simp only [Option.getD_some]
    rw [ih (acc ++ [a]) (fun x hx => has x (List.mem_cons_of_mem _ hx))]
    simp

theorem mGet_dictInsert_self (m : Meta) (k : String) (v : MetaVal) :
    mGet (dictInsert m k v) k = some v := by
  induction m with
  | nil => simp [dictInsert, mGet]
  | cons p t ih =>
    obtain ⟨k0, v0⟩ := p
    by_cases hk : k0 = k
    · subst hk
      simp [dictInsert, mGet]
    · have hk2 : ¬ k = k0 := fun he => hk he.symm
      have e1 : dictInsert ((k0, v0) :: t) k v = (k0, v0) :: dictInsert t k v := by
        simp [dictInsert, hk]
      have e2 : mGet ((k0, v0) :: dictInsert t k v) k
          = if k = k0 then some v0 else mGet (dictInsert t k v) k := by
        simp [mGet]
      rw [e1, e2, if_neg hk2, ih]

/-- C8 counterexample: with an in-progress list for `ks` interrupted by a
blank line, the blank line already flushes `["a", "b"]` and the final
flush overwrites it, so `ks` maps to `["c"]` alone rather than to the
single list `["a", "b", "c"]` of all items. -/
theorem c8_counterexample :
    mGet (parseFrontmatter "---\nks:\n  - a\n  - b\n\n  - c\n---\nrest").1 "ks"
        = some (.list ["c"])
      ∧ MetaVal.list ["c"] ≠ MetaVal.list ["a", "b", "c"] := by decide

/-- C8 (amended): a pending bullet list is flushed when any line that is
not a bullet line is processed — in particular a blank line — or when the
header ends; consequently, for a key whose bullet items are separated by a
blank line, the key ends up mapped to the list of items after the last
separator (the final flush overwrites the earlier one), not to all items.
Stated for a header of a `key:` line, bullets, a blank line, and more
bullets. -/
theorem c8_blank_line_splits_list (k : String) (as bs : List String)
    (hk : k ≠ "" ∧ pyStrip k = k ∧ ':' ∉ k.data)
    (hitems : ∀ a ∈ as ++ bs, a ≠ "" ∧ pyStrip a = a)
    (hbs : bs ≠ []) :
    mGet (parseMetaLines ((k ++ ":") :: (as.map (fun a => "  - " ++ a)
        ++ [""] ++ bs.map (fun a => "  - " ++ a)))) k
      = some (.list bs) := by
  obtain ⟨hk1, hk2, hk3⟩ := hk
  have hasitems : ∀ a ∈ as, a ≠ "" ∧ pyStrip a = a :=
    fun a ha => hitems a (List.mem_append.mpr (Or.inl ha))
  have hbsitems : ∀ a ∈ bs, a ≠ "" ∧ pyStrip a = a :=
    fun a ha => hitems a (List.mem_append.mpr (Or.inr ha))
  obtain ⟨b0, bs', rfl⟩ : ∃ x xs, bs = x :: xs := by
    cases bs with
    | nil => exact absurd rfl hbs
    | cons x xs => exact ⟨x, xs, rfl⟩
  have hb0 := hbsitems b0 (List.mem_cons_self ..)
  unfold parseMetaLines
  simp only [List.foldl_cons, List.foldl_append, List.foldl_nil]
  rw [metaStep_keyline [] none k hk1 hk2 hk3]
  cases has0 : as with
  | nil =>
    simp only [List.map_nil, List.foldl_nil]
    rw [metaStep_blank_none [] k hk1]
    simp only [List.map_cons, List.foldl_cons]
    rw [metaStep_bullet [] k none b0 hk1 hb0.1 hb0.2]
    simp only [Option.getD_none, List.nil_append]
    rw [foldl_bullets bs' [] k [b0] hk1
      (fun x hx => hbsitems x (List.mem_cons_of_mem _ hx))]
    have hck : ckTruthy (some k) = true := by simp [ckTruthy, hk1]
    simp only [Option.isSome_some, hck, and_self, if_true, Option.getD_some,
      List.cons_append]
    exact mGet_dictInsert_self _ _ _
  | cons a0 as' =>
    have ha0 := hasitems a0 (by rw [has0]; exact List.mem_cons_self ..)
    have has' : ∀ x ∈ as', x ≠ "" ∧ pyStrip x = x := by
      intro x hx
      exact hasitems x (by rw [has0]; exact List.mem_cons_of_mem _ hx)
    simp only [List.map_cons, List.foldl_cons]
    rw [metaStep_bullet [] k none a0 hk1 ha0.1 ha0.2]
    simp only [Option.getD_none, List.nil_append]
    rw [foldl_bullets as' [] k [a0] hk1 has']
    rw [metaStep_blank_some [] k ([a0] ++ as') hk1]
    rw [metaStep_bullet _ k none b0 hk1 hb0.1 hb0.2]
    simp only [Option.getD_none, List.nil_append]
    rw [foldl_bullets bs' _ k [b0] hk1
      (fun x hx => hbsitems x (List.mem_cons_of_mem _ hx))]
    have hck : ckTruthy (some k) = true := by simp [ckTruthy, hk1]
    simp only [Option.isSome_some, hck, and_self, if_true, Option.getD_some,
      List.cons_append]
    exact mGet_dictInsert_self _ _ _

/-- C8 witness: the amended flush behaviour at concrete items. -/
theorem c8_witness :
    mGet (parseMetaLines (("ks" ++ ":") :: (["a", "b"].map (fun a => "  - " ++ a)
        ++ [""] ++ ["c"].map (fun a => "  - " ++ a)))) "ks"
      = some (.list ["c"]) :=
  c8_blank_line_splits_list "ks" ["a", "b"] ["c"] (by decide)
    (by decide) (by decide)

theorem buildLifecycleData_phases (lc : List String) (ags : List Agent)
    (sks : List Skill) (aps : List AltPath) (cm : List (String × String)) :
    ((buildLifecycleData lc ags sks aps cm).1.map (fun st => st.phase))
      = (List.range lc.length).map
          (fun i => if i < (phaseAssignment lc.length).length
            then (phaseAssignment lc.length).getD i 0 else 3) := by
  simp only [buildLifecycleData]
  rw [List.map_map, ← List.enum_map_fst lc, List.map_map]
  exact List.map_congr_left (fun pr _ => rfl)

/-- C3: `build_lifecycle_data` assigns a lifecycle of exactly 8 steps the
phase indices [0,0,1,1,2,2,3,3], and in a lifecycle of exactly 5 steps the
step at index i gets phase min 3 (4 * i / 5), i.e. phases [0,0,1,2,3]. -/
theorem c3_lifecycle_phase_assignment (lc : List String) (ags : List Agent)
    (sks : List Skill) (aps : List AltPath) (cm : List (String × String)) :
    (lc.length = 8 →
      ((buildLifecycleData lc ags sks aps cm).1.map (fun st => st.phase))
        = [0, 0, 1, 1, 2, 2, 3, 3]) ∧
    (lc.length = 5 →
      ((buildLifecycleData lc ags sks aps cm).1.map (fun st => st.phase))
        = (List.range 5).map (fun i => min 3 (4 * i / 5)) ∧
      (List.range 5).map (fun i => min 3 (4 * i / 5)) = [0, 0, 1, 2, 3]) := by
  constructor
  · intro h
    rw [buildLifecycleData_phases, h]
    decide
  · intro h
    rw [buildLifecycleData_phases, h]
    exact ⟨by decide, by decide⟩

theorem addOpSkill_name (sn : String) (a : Agent) :
    (addOpSkill sn a).name = a.name := rfl

theorem addOpSkill_skills (sn : String) (a : Agent) :
    (addOpSkill sn a).skills
      = if sn ∈ a.skills then a.skills else a.skills ++ [sn] := rfl

theorem addOpSkill_count_ne (sn sk : String) (a : Agent) (h : sn ≠ sk) :
    (addOpSkill sn a).skills.count sk = a.skills.count sk := by
  rw [addOpSkill_skills]
  by_cases hm : sn ∈ a.skills
  · rw [if_pos hm]
  · rw [if_neg hm]
    have h0 : List.count sk [sn] = 0 := by
      rw [List.count_eq_zero]
      simp [Ne.symm h]
    rw [List.count_append, h0]
    omega

theorem addOpSkill_count_self (sk : String) (a : Agent)
    (h : a.skills.count sk ≤ 1) :
    (addOpSkill sk a).skills.count sk = 1 := by
  rw [addOpSkill_skills]
  by_cases hm : sk ∈ a.skills
  · rw [if_pos hm]
    have h1 : 0 < a.skills.count sk := List.count_pos_iff.mpr hm
    omega
  · rw [if_neg hm]
    have h0 : List.count sk [sk] = 1 := by simp
    rw [List.count_append, List.count_eq_zero.mpr hm, h0]

theorem updAgent_get_ne (ags : List Agent) (j i : Nat) (f : Agent → Agent)
    (h : j ≠ i) : (updAgent ags j f).get? i = ags.get? i := by
  unfold updAgent
  cases hj : ags.get? j with
  | none => rfl
  | some a => exact List.get?_set_ne _ _ h

theorem updAgent_get_self (ags : List Agent) (i : Nat) (f : Agent → Agent)
    (a : Agent) (ha : ags.get? i = some a) :
    (updAgent ags i f).get? i = some (f a) := by
  unfold updAgent
  rw [ha]
  have hlt : i < ags.length := by
    by_contra hge
    rw [List.get?_eq_none.mpr (by omega)] at ha
    cases ha
  exact List.get?_set_eq_of_lt _ hlt

theorem inferStep_resolved (agents : List Agent) (sn : String)
    (ags2 : List Agent) (ref : String) (j : Nat)
    (hl : lookupAgentIdx agents (pyLower ref) = some j) :
    inferStep agents sn ags2 ref = updAgent ags2 j (addOpSkill sn) := by
  unfold inferStep
  rw [hl]

theorem inferStep_unresolved (agents : List Agent) (sn : String)
    (ags2 : List Agent) (ref : String)
    (hl : lookupAgentIdx agents (pyLower ref) = none) :
    inferStep agents sn ags2 ref = ags2 := by
  unfold inferStep
  rw [hl]

theorem innerFold_mono (agents : List Agent) (sk : String) (i : Nat)
    (refs : List String) :
    ∀ (ags2 : List Agent) (a : Agent), ags2.get? i = some a →
      a.skills.count sk ≤ 1 →
      ∃ a2, (refs.foldl (inferStep agents sk) ags2).get? i = some a2 ∧
        a2.name = a.name ∧ a.skills.count sk ≤ a2.skills.count sk ∧
        a2.skills.count sk ≤ 1 := by
  induction refs with
  | nil =>
    intro ags2 a ha hle
    exact ⟨a, ha, rfl, le_refl _, hle⟩
  | cons r rs ih =>
    intro ags2 a ha hle
    rw [List.foldl_cons]
    cases hl : lookupAgentIdx agents (pyLower r) with
    | none =>
      rw [inferStep_unresolved agents sk ags2 r hl]
      exact ih ags2 a ha hle
    | some j =>
      rw [inferStep_resolved agents sk ags2 r j hl]
      by_cases hji : j = i
      · subst hji
        have ha2 := updAgent_get_self ags2 j (addOpSkill sk) a ha
        have hc : (addOpSkill sk a).skills.count sk = 1 :=
          addOpSkill_count_self sk a hle
        obtain ⟨a2, h1, h2, h3, h4⟩ := ih _ _ ha2 (by rw [hc])
        rw [hc] at h3
        exact ⟨a2, h1, by rw [h2, addOpSkill_name], by omega, h4⟩
      · have ha0 := updAgent_get_ne ags2 j i (addOpSkill sk) hji
        rw [ha] at ha0
        exact ih _ _ ha0 hle

theorem innerFold_hit (agents : List Agent) (sk : String) (i : Nat)
    (refs : List String) :
    ∀ (ags2 : List Agent) (a : Agent), ags2.get? i = some a →
      a.skills.count sk ≤ 1 →
      (∃ ref ∈ refs, lookupAgentIdx agents (pyLower ref) = some i) →
      ∃ a2, (refs.foldl (inferStep agents sk) ags2).get? i = some a2 ∧
        a2.name = a.name ∧ a2.skills.count sk = 1 := by
  induction refs with
  | nil =>
    intro ags2 a ha hle hex
    obtain ⟨r, hr, -⟩ := hex
    exact absurd hr (List.not_mem_nil r)
  | cons r rs ih =>
    intro ags2 a ha hle hex
    obtain ⟨x, hx, hpx⟩ := hex
    rw [List.foldl_cons]
    cases hl : lookupAgentIdx agents (pyLower r) with
    | none =>
      rw [inferStep_unresolved agents sk ags2 r hl]
      rcases List.mem_cons.mp hx with hxr | hxrs
      · rw [hxr, hl] at hpx
        exact Option.noConfusion hpx
      · exact ih ags2 a ha hle ⟨x, hxrs, hpx⟩
    | some j =>
      rw [inferStep_resolved agents sk ags2 r j hl]
      by_cases hji : j = i
      · subst hji
        have ha2 := updAgent_get_self ags2 j (addOpSkill sk) a ha
        have hc : (addOpSkill sk a).skills.count sk = 1 :=
          addOpSkill_count_self sk a hle
        obtain ⟨a2, h1, h2, h3, h4⟩ :=
          innerFold_mono agents sk j rs _ _ ha2 (by rw [hc])
        rw [hc] at h3
        exact ⟨a2, h1, by rw [h2, addOpSkill_name], by omega⟩
      · have ha0 := updAgent_get_ne ags2 j i (addOpSkill sk) hji
        rw [ha] at ha0
        rcases List.mem_cons.mp hx with hxr | hxrs
        · rw [hxr, hl] at hpx
          exact absurd (Option.some.inj hpx) hji
        · exact ih _ _ ha0 hle ⟨x, hxrs, hpx⟩

theorem innerFold_ne (agents : List Agent) (sn sk : String) (hne : sn ≠ sk)
    (i : Nat) (refs : List String) :
    ∀ (ags2 : List Agent) (a : Agent), ags2.get? i = some a →
      ∃ a2, (refs.foldl (inferStep agents sn) ags2).get? i = some a2 ∧
        a2.name = a.name ∧ a2.skills.count sk = a.skills.count sk := by
  induction refs with
  | nil =>
    intro ags2 a ha
    exact ⟨a, ha, rfl, rfl⟩
  | cons r rs ih =>
    intro ags2 a ha
    rw [List.foldl_cons]
    cases hl : lookupAgentIdx agents (pyLower r) with
    | none =>
      rw [inferStep_unresolved agents sn ags2 r hl]
      exact ih ags2 a ha
    | some j =>
      rw [inferStep_resolved agents sn ags2 r j hl]
      by_cases hji : j = i
      · subst hji
        have ha2 := updAgent_get_self ags2 j (addOpSkill sn) a ha
        obtain ⟨a2, h1, h2, h3⟩ := ih _ _ ha2
        exact ⟨a2, h1, by rw [h2, addOpSkill_name],
          by rw [h3, addOpSkill_count_ne sn sk a hne]⟩
      · have ha0 := updAgent_get_ne ags2 j i (addOpSkill sn) hji
        rw [ha] at ha0
        exact ih _ _ ha0

theorem outerFold_ne (agents : List Agent) (sk : String) (i : Nat) :
    ∀ (bodies : List (String × String)), (∀ p ∈ bodies, p.1 ≠ sk) →
    ∀ (ags : List Agent) (a : Agent), ags.get? i = some a →
      ∃ a2, (bodies.foldl (inferBody agents) ags).get? i = some a2 ∧
        a2.name = a.name ∧ a2.skills.count sk = a.skills.count sk := by
  intro bodies
  induction bodies with
  | nil =>
    intro _ ags a ha
    exact ⟨a, ha, rfl, rfl⟩
  | cons p ps ih =>
    intro hne ags a ha
    rw [List.foldl_cons]
    by_cases hm : p.1 ∈ META_SKILLS
    · have hstep : inferBody agents ags p = ags := by
        unfold inferBody
        rw [if_pos hm]
      rw [hstep]
      exact ih (fun q hq => hne q (List.mem_cons_of_mem _ hq)) ags a ha
    · have hstep : inferBody agents ags p
          = (findMentions p.2.data).foldl (inferStep agents p.1) ags := by
        unfold inferBody
        rw [if_neg hm]
      rw [hstep]
      obtain ⟨a1, h1, h2, h3⟩ := innerFold_ne agents p.1 sk
        (hne p (List.mem_cons_self ..)) i (findMentions p.2.data) ags a ha
      obtain ⟨a2, g1, g2, g3⟩ :=
        ih (fun q hq => hne q (List.mem_cons_of_mem _ hq)) _ _ h1
      exact ⟨a2, g1, by rw [g2, h2], by rw [g3, h3]⟩

/-- C4: forward inference adds a non-meta skill that mentions `@engineer`
to the Engineer agent's operational skills exactly once, no matter how
many times the mention occurs in the body. -/
theorem c4_forward_inference_once (bodies : List (String × String))
    (agents : List Agent) (sk body : String) (i : Nat) (a : Agent)
    (hmem : (sk, body) ∈ bodies)
    (hkey : (bodies.map Prod.fst).count sk = 1)
    (hmeta : sk ∉ META_SKILLS)
    (hment : "engineer" ∈ findMentions body.data)
    (hlook : lookupAgentIdx agents "engineer" = some i)
    (ha : agents.get? i = some a)
    (hname : a.name = "Engineer")
    (h0 : sk ∉ a.skills) :
    ∃ a2, (forwardInference bodies agents).get? i = some a2 ∧
      a2.name = "Engineer" ∧ a2.skills.count sk = 1 := by
  obtain ⟨l1, l2, hsplit⟩ := List.append_of_mem hmem
  subst hsplit
  rw [List.map_append, List.count_append, List.map_cons,
    List.count_cons_self] at hkey
  have hne1 : ∀ p ∈ l1, p.1 ≠ sk := by
    intro p hp he
    have hm1 : sk ∈ l1.map Prod.fst := List.mem_map.mpr ⟨p, hp, he⟩
    have := List.count_pos_iff.mpr hm1
    omega
  have hne2 : ∀ p ∈ l2, p.1 ≠ sk := by
    intro p hp he
    have hm2 : sk ∈ l2.map Prod.fst := List.mem_map.mpr ⟨p, hp, he⟩
    have := List.count_pos_iff.mpr hm2
    omega
  unfold forwardInference
  rw [List.foldl_append, List.foldl_cons]
  obtain ⟨a1, h1, hn1, hcnt1⟩ := outerFold_ne agents sk i l1 hne1 agents a ha
  have hcnt1z : a1.skills.count sk = 0 := by
    rw [hcnt1, List.count_eq_zero.mpr h0]
  have hstep : inferBody agents (l1.foldl (inferBody agents) agents) (sk, body)
      = (findMentions body.data).foldl (inferStep agents sk)
          (l1.foldl (inferBody agents) agents) := by
    unfold inferBody
    rw [if_neg hmeta]
  rw [hstep]
  have hplow : pyLower "engineer" = "engineer" := by decide
  obtain ⟨amid, hm1, hm2, hm3⟩ := innerFold_hit agents sk i
    (findMentions body.data) _ a1 h1 (by omega)
    ⟨"engineer", hment, by rw [hplow]; exact hlook⟩
  obtain ⟨a2, hp1, hp2, hp3⟩ := outerFold_ne agents sk i l2 hne2 _ amid hm1
  exact ⟨a2, hp1, by rw [hp2, hm2, hn1, hname], by rw [hp3, hm3]⟩

/-- C4 witness: one body that mentions `@engineer` twice yields a single
occurrence of the skill on the Engineer agent. -/
theorem c4_witness :
    ∃ a2, (forwardInference
        [("code-review", "Ping @engineer and again @engineer.")]
        [⟨"Engineer", .str "inherit", [], [], [], [], .str "", .str "",
          ""⟩]).get? 0 = some a2 ∧
      a2.name = "Engineer" ∧ a2.skills.count "code-review" = 1 :=
  c4_forward_inference_once
    [("code-review", "Ping @engineer and again @engineer.")]
    [⟨"Engineer", .str "inherit", [], [], [], [], .str "", .str "", ""⟩]
    "code-review" "Ping @engineer and again @engineer." 0
    ⟨"Engineer", .str "inherit", [], [], [], [], .str "", .str "", ""⟩
    (by decide) (by decide) (by decide) (by decide) (by decide) (by decide)
    (by decide) (by decide)

theorem discoverAgentFile_observer (f : String × String) (nm : String)
    (hname : getMetaStr (parseFrontmatter f.2).1 "name" f.1 = some nm)
    (hlow : pyLower nm = "observer") :
    discoverAgentFile f = some none := by
  unfold discoverAgentFile
  simp [hname, hlow]

theorem discoverAgents_skip (l1 l2 : List (String × String))
    (obs : String × String) (hobs : discoverAgentFile obs = some none) :
    discoverAgents (l1 ++ obs :: l2) = discoverAgents (l1 ++ l2) := by
  unfold discoverAgents
  rw [List.mapM_append, List.mapM_append, List.mapM_cons, hobs]
  cases h1 : l1.mapM discoverAgentFile with
  | none => simp
  | some bs1 =>
    cases h2 : l2.mapM discoverAgentFile with
    | none => simp
    | some bs2 => simp [List.filterMap_append]

/-- C1: a file in the agents directory whose resolved agent name is
`observer` in any letter casing contributes nothing to the Org Model:
`build_from_plugin` returns exactly the configuration it would return if
the file were absent, so no agent entry, team member list, lifecycle
annotation, utility-skill agent list, or tool assignment of that run
references it. -/
theorem c1_observer_excluded (d : PluginDir)
    (l1 l2 : List (String × String)) (obs : String × String) (nm : String)
    (hfiles : d.agentFiles = l1 ++ obs :: l2)
    (hname : getMetaStr (parseFrontmatter obs.2).1 "name" obs.1 = some nm)
    (hlow : pyLower nm = "observer") :
    buildFromPlugin d = buildFromPlugin { d with agentFiles := l1 ++ l2 } := by
  have hobs := discoverAgentFile_observer obs nm hname hlow
  have hda := discoverAgents_skip l1 l2 obs hobs
  unfold buildFromPlugin
  rw [hfiles, hda]

/-- C1 witness: dropping a frontmatter-less `observer.md` leaves the
build unchanged on a small plugin directory. -/
theorem c1_witness :
    buildFromPlugin ⟨none, none, [("observer", "watches silently")], [], none⟩
      = buildFromPlugin ⟨none, none, [], [], none⟩ :=
  c1_observer_excluded ⟨none, none, [("observer", "watches silently")], [], none⟩
    [] [] ("observer", "watches silently") "observer"
    (by decide) (by decide) (by decide)

theorem buildLifecycleData_skills (lc : List String) (ags : List Agent)
    (sks : List Skill) (aps : List AltPath) (cm : List (String × String)) :
    ((buildLifecycleData lc ags sks aps cm).1.map (fun st => st.skill))
      = lc := by
  simp only [buildLifecycleData]
  rw [List.map_map]
  calc lc.enum.map _ = lc.enum.map Prod.snd :=
        List.map_congr_left (fun pr _ => rfl)
    _ = lc := List.enum_map_snd lc

theorem mkTeamDatum_members (cm : List (String × String)) (tm : Team) :
    ((mkTeamDatum cm tm).members.map (fun m => m.name)) = tm.members := by
  simp only [mkTeamDatum, List.map_map]
  calc tm.members.map _ = tm.members.map id :=
        List.map_congr_left (fun m _ => rfl)
    _ = tm.members := List.map_id tm.members

/-- C7 counterexample: the embedded payload does not determine the Org
Model — two configurations differing only in an agent's markdown body
produce identical payloads, so no deserialization of the payload can
reproduce the input config. -/
theorem c7_counterexample :
    generateHtmlData
        ⟨"X", [⟨"A", .str "inherit", [], [], [], [], .str "", .str "",
          "m1"⟩], [], [], [], [], [], [], []⟩
      = generateHtmlData
        ⟨"X", [⟨"A", .str "inherit", [], [], [], [], .str "", .str "",
          "m2"⟩], [], [], [], [], [], [], []⟩
    ∧ (⟨"X", [⟨"A", .str "inherit", [], [], [], [], .str "", .str "",
          "m1"⟩], [], [], [], [], [], [], []⟩ : Config)
      ≠ ⟨"X", [⟨"A", .str "inherit", [], [], [], [], .str "", .str "",
          "m2"⟩], [], [], [], [], [], [], []⟩ := by decide

/-- C7 (amended): the embedded payload is not a faithful serialization of
the whole Org Model (agent and skill markdown bodies are never embedded,
so distinct configs can render identically); what the payload does
preserve exactly is the lifecycle skill sequence and the team names and
member name lists. -/
theorem c7_payload_preservation (config : Config) :
    ((generateHtmlData config).lifecycle.map (fun st => st.skill))
        = config.lifecycle
    ∧ ((generateHtmlData config).teams.map (fun t => t.name))
        = config.teams.map (fun tm => tm.name)
    ∧ ((generateHtmlData config).teams.map
          (fun t => t.members.map (fun m => m.name)))
        = config.teams.map (fun tm => tm.members) := by
  refine ⟨?_, ?_, ?_⟩
  · simp only [generateHtmlData]
    exact buildLifecycleData_skills ..
  · simp only [generateHtmlData]
    rw [List.map_map]
    exact List.map_congr_left (fun tm _ => rfl)
  · simp only [generateHtmlData]
    rw [List.map_map]
    exact List.map_congr_left (fun tm _ => mkTeamDatum_members _ tm)

end VizOrg
